import Mathlib

/-!
# SimpleVector (simple_vector.h): a shallow embedding

The container of `src/simple-vector/simple_vector.h` is embedded as a record of
its three data members, with every member function a Lean function on that
record.

Conventions of the embedding.

* A slot of a buffer is an `Option T`: `some x` is a slot holding the value `x`,
  `none` is a slot holding no specified value (freshly allocated storage, or an
  object that has been moved from).
* A pointer or iterator into a buffer is the index of the slot it points to.
  Forming a position such as `&simple_vector_[size_]` accesses no slot; only
  reading or assigning through a position does.
* `size_t` values are natural numbers.  An allocation of `2^63` slots or more
  cannot succeed, so the products `2 * capacity_` and `new_size * 2` are taken
  without wrap-around.
* A function that accesses slots, asserts or throws returns `Except Fault _`.
  `Fault.undefined` is a slot access outside the buffer (undefined behaviour in
  C++), `Fault.assertion` a failed `assert`, `Fault.out_of_range` the exception
  thrown by `At`, `Fault.unspecified` a comparison that needs the value of a slot
  holding no specified value.
* Allocation is assumed to succeed.
* An argument passed by reference (`item`, `value`, `other`, `rhs`) is an object
  outside the buffer of the vector the function is called on.
* The element type's `operator==` and `operator<` are the parameters `eq` and `lt`
  of the comparison functions.
-/

set_option autoImplicit false

/-- The ways in which a call can fail to return normally. -/
inductive Fault where
  | out_of_range
  | assertion
  | undefined
  | unspecified
  deriving DecidableEq

deriving instance DecidableEq for Except

/-- Modelled from the spec: `array_ptr.h` (the class `ArrayPtr`, called RawBuffer in
the spec) is not part of the sources.  The buffer owns `n` contiguous slots, here
the list of their contents; the null buffer is the empty list. -/
structure ArrayPtr (T : Type) where
  raw_ptr_ : List (Option T)
  deriving DecidableEq

namespace ArrayPtr

variable {T : Type}

/-- Modelled from the spec: `new(n)` allocates `n` uninitialised slots
(`n = 0` gives the null buffer). -/
def new (n : Nat) : ArrayPtr T := ⟨List.replicate n none⟩

/-- Modelled from the spec: the slot count `n` of the buffer. -/
def slots (a : ArrayPtr T) : Nat := a.raw_ptr_.length

/-- Modelled from the spec: `index(i)` used for reading, precondition `i < n`,
undefined otherwise. -/
def index (a : ArrayPtr T) (i : Nat) : Except Fault (Option T) :=
  match a.raw_ptr_[i]? with
  | some x => .ok x
  | none => .error .undefined

/-- Modelled from the spec: `index(i)` used as the target of an assignment,
precondition `i < n`, undefined otherwise. -/
def assign (a : ArrayPtr T) (i : Nat) (x : Option T) : Except Fault (ArrayPtr T) :=
  if i < a.raw_ptr_.length then .ok ⟨a.raw_ptr_.set i x⟩ else .error .undefined

/-- Modelled from the spec: `swap(other)` exchanges the two buffers. -/
def swap (a b : ArrayPtr T) : ArrayPtr T × ArrayPtr T := (b, a)

/-- Modelled from the spec: move assignment `target = std::move(source)` of the
buffer class, which "assigns the source's `(base, n)` to the target and resets
source to `(null, 0)`".  The target and the source after the assignment. -/
def move_assign (_target source : ArrayPtr T) : ArrayPtr T × ArrayPtr T :=
  (source, ArrayPtr.new 0)

/-- The value of the element in slot `i`, read as an operand of a comparison.  A slot
that holds no specified value has no value to give: `Fault.unspecified`. -/
def read (a : ArrayPtr T) (i : Nat) : Except Fault T :=
  match a.index i with
  | .error e => .error e
  | .ok none => .error .unspecified
  | .ok (some x) => .ok x

end ArrayPtr

section algorithms

variable {T : Type}

/-- The algorithm `std::fill(first, first + n, value)` on one buffer. -/
def std_fill (value : T) : ArrayPtr T → Nat → Nat → Except Fault (ArrayPtr T)
  | buf, _, 0 => .ok buf
  | buf, first, n + 1 =>
    match buf.assign first (some value) with
    | .error e => .error e
    | .ok buf1 => std_fill value buf1 (first + 1) n

/-- The algorithm `std::copy(first, first + n, d_first)` from the buffer `src` into a
different buffer `dst`: front to back, `*d_first++ = *first++`. -/
def std_copy (src : ArrayPtr T) : Nat → ArrayPtr T → Nat → Nat → Except Fault (ArrayPtr T)
  | _, dst, _, 0 => .ok dst
  | first, dst, d_first, n + 1 =>
    match src.index first with
    | .error e => .error e
    | .ok x =>
      match dst.assign d_first x with
      | .error e => .error e
      | .ok dst1 => std_copy src (first + 1) dst1 (d_first + 1) n

/-- The algorithm `std::move(first, first + n, d_first)` from the buffer `src` into a
different buffer `dst`.  Every caller releases `src` right afterwards without
reading it again, so the moved-from slots of `src` are not returned. -/
def std_move (src : ArrayPtr T) (first : Nat) (dst : ArrayPtr T) (d_first n : Nat) :
    Except Fault (ArrayPtr T) :=
  std_copy src first dst d_first n

/-- The algorithm `std::copy_backward(last - n, last, d_last)` from the buffer `src`
into a different buffer `dst`: back to front, `*(--d_last) = *(--last)`. -/
def std_copy_backward (src : ArrayPtr T) :
    Nat → ArrayPtr T → Nat → Nat → Except Fault (ArrayPtr T)
  | _, dst, _, 0 => .ok dst
  | last, dst, d_last, n + 1 =>
    match src.index (last - 1) with
    | .error e => .error e
    | .ok x =>
      match dst.assign (d_last - 1) x with
      | .error e => .error e
      | .ok dst1 => std_copy_backward src (last - 1) dst1 (d_last - 1) n

/-- The algorithm `std::move_backward(last - n, last, d_last)` from the buffer `src`
into a different buffer `dst`; `src` is released by the caller afterwards. -/
def std_move_backward (src : ArrayPtr T) (last : Nat) (dst : ArrayPtr T) (d_last n : Nat) :
    Except Fault (ArrayPtr T) :=
  std_copy_backward src last dst d_last n

/-- One element assignment inside a single buffer: `*d = *s` when `mv` is false,
`*d = std::move(*s)` when `mv` is true (the source slot is then left moved-from). -/
def transfer (mv : Bool) (buf : ArrayPtr T) (s d : Nat) : Except Fault (ArrayPtr T) :=
  match buf.index s with
  | .error e => .error e
  | .ok x =>
    match buf.assign d x with
    | .error e => .error e
    | .ok buf1 => if mv then buf1.assign s none else .ok buf1

/-- The algorithms `std::copy` (`mv` false) and `std::move` (`mv` true) with source
range and destination in the same buffer: front to back. -/
def forward_within (mv : Bool) : ArrayPtr T → Nat → Nat → Nat → Except Fault (ArrayPtr T)
  | buf, _, _, 0 => .ok buf
  | buf, first, d_first, n + 1 =>
    match transfer mv buf first d_first with
    | .error e => .error e
    | .ok buf1 => forward_within mv buf1 (first + 1) (d_first + 1) n

/-- The algorithms `std::copy_backward` (`mv` false) and `std::move_backward`
(`mv` true) with source range and destination in the same buffer: back to front. -/
def backward_within (mv : Bool) : ArrayPtr T → Nat → Nat → Nat → Except Fault (ArrayPtr T)
  | buf, _, _, 0 => .ok buf
  | buf, last, d_last, n + 1 =>
    match transfer mv buf (last - 1) (d_last - 1) with
    | .error e => .error e
    | .ok buf1 => backward_within mv buf1 (last - 1) (d_last - 1) n

/-- The algorithm `std::equal(first1, first1 + n, first2)` with the element type's
`operator==` given as `eq`:
`for (; first1 != last1; ++first1, ++first2) if (!(*first1 == *first2)) return false;`
then `return true`. -/
def std_equal (eq : T → T → Bool) (a : ArrayPtr T) (b : ArrayPtr T) :
    Nat → Nat → Nat → Except Fault Bool
  | _, _, 0 => .ok true
  | first1, first2, n + 1 =>
    match a.read first1 with
    | .error e => .error e
    | .ok x =>
      match b.read first2 with
      | .error e => .error e
      | .ok y => if eq x y then std_equal eq a b (first1 + 1) (first2 + 1) n else .ok false

/-- The algorithm `std::lexicographical_compare(first1, first1 + n1, first2,
first2 + n2)` with the element type's `operator<` given as `lt`:
`for (; first1 != last1 && first2 != last2; ++first1, ++first2)`
`{ if (*first1 < *first2) return true; if (*first2 < *first1) return false; }`
then `return first1 == last1 && first2 != last2`. -/
def std_lexicographical_compare (lt : T → T → Bool) (a : ArrayPtr T) (b : ArrayPtr T) :
    Nat → Nat → Nat → Nat → Except Fault Bool
  | _, 0, _, 0 => .ok false
  | _, 0, _, _ + 1 => .ok true
  | _, _ + 1, _, 0 => .ok false
  | first1, n1 + 1, first2, n2 + 1 =>
    match a.read first1 with
    | .error e => .error e
    | .ok x =>
      match b.read first2 with
      | .error e => .error e
      | .ok y =>
        if lt x y then .ok true
        else if lt y x then .ok false
        else std_lexicographical_compare lt a b (first1 + 1) n1 (first2 + 1) n2

end algorithms

/-- The class template `SimpleVector`: its three data members. -/
structure SimpleVector (T : Type) where
  simple_vector_ : ArrayPtr T
  size_ : Nat
  capacity_ : Nat
  deriving DecidableEq

namespace SimpleVector

variable {T : Type}

/-- The elements of the vector: the contents of the slots `[0, size_)`. -/
def live (v : SimpleVector T) : List (Option T) := v.simple_vector_.raw_ptr_.take v.size_

/-- Member `GetSize`. -/
def GetSize (v : SimpleVector T) : Nat := v.size_

/-- Member `GetCapacity`. -/
def GetCapacity (v : SimpleVector T) : Nat := v.capacity_

/-- Member `IsEmpty`. -/
def IsEmpty (v : SimpleVector T) : Bool := v.size_ == 0

/-- Member `begin()`, which is `simple_vector_.Get()`: the position of slot 0. -/
def begin_ (_v : SimpleVector T) : Nat := 0

/-- Member `end()`, which is `simple_vector_.Get() + size_`. -/
def end_ (v : SimpleVector T) : Nat := v.begin_ + v.size_

/-- Member `cbegin()`, which is `&simple_vector_[0]`. -/
def cbegin (_v : SimpleVector T) : Nat := 0

/-- Member `cend()`, which is `&simple_vector_[size_]`. -/
def cend (v : SimpleVector T) : Nat := v.size_

/-- The constructor `SimpleVector() noexcept = default`. -/
def empty : SimpleVector T := ⟨ArrayPtr.new 0, 0, 0⟩

/-- The constructor `SimpleVector(size_t size, const Type &value)`. -/
def with_size_fill (size : Nat) (value : T) : Except Fault (SimpleVector T) :=
  let v : SimpleVector T := ⟨ArrayPtr.new size, size, size⟩
  match std_fill value v.simple_vector_ v.begin_ (v.end_ - v.begin_) with
  | .error e => .error e
  | .ok buf => .ok ⟨buf, size, size⟩

/-- The constructor `SimpleVector(size_t size)`, delegating with `Type{}`. -/
def with_size [Inhabited T] (size : Nat) : Except Fault (SimpleVector T) :=
  with_size_fill size default

/-- The constructor `SimpleVector(std::initializer_list<Type> init)`. -/
def from_sequence (init : List T) : Except Fault (SimpleVector T) :=
  let v : SimpleVector T := ⟨ArrayPtr.new init.length, init.length, init.length⟩
  match std_move ⟨init.map some⟩ 0 v.simple_vector_ v.begin_ init.length with
  | .error e => .error e
  | .ok buf => .ok ⟨buf, init.length, init.length⟩

/-- Member `Reserve`. -/
def Reserve (v : SimpleVector T) (new_capacity : Nat) : Except Fault (SimpleVector T) :=
  if new_capacity > v.capacity_ then
    match std_copy v.simple_vector_ v.begin_ (ArrayPtr.new new_capacity) 0 (v.end_ - v.begin_) with
    | .error e => .error e
    | .ok helper => .ok ⟨(v.simple_vector_.swap helper).1, v.size_, new_capacity⟩
  else .ok v

/-- The constructor `SimpleVector(ReserveProxyObj capacity_to_reserve)`. -/
def from_reservation (capacity_to_reserve : Nat) : Except Fault (SimpleVector T) :=
  Reserve empty capacity_to_reserve

/-- The copy constructor `SimpleVector(const SimpleVector &other)`. -/
def copy (other : SimpleVector T) : Except Fault (SimpleVector T) :=
  match std_copy other.simple_vector_ other.cbegin (ArrayPtr.new other.size_) 0
      (other.cend - other.cbegin) with
  | .error e => .error e
  | .ok helper => .ok ⟨((ArrayPtr.new 0).swap helper).1, other.GetSize, other.GetCapacity⟩

/-- The move constructor `SimpleVector(SimpleVector &&other)`: the new vector and the
state in which `other` is left.  The member initialiser allocates `other.size_`
slots, `std::exchange` takes `size_` and `capacity_` and leaves 0, and the buffer
comes by the move assignment of `ArrayPtr`. -/
def move (other : SimpleVector T) : SimpleVector T × SimpleVector T :=
  let simple_vector_ : ArrayPtr T := ArrayPtr.new other.size_
  let size_ := other.size_
  let capacity_ := other.capacity_
  let buffers := simple_vector_.move_assign other.simple_vector_
  (⟨buffers.1, size_, capacity_⟩, ⟨buffers.2, 0, 0⟩)

/-- Member `operator[]`, read through the returned reference. -/
def operator_index (v : SimpleVector T) (index : Nat) : Except Fault (Option T) :=
  if index < v.size_ then v.simple_vector_.index index else .error .assertion

/-- Member `operator[]`, assignment `v[index] = x` through the returned reference. -/
def operator_index_assign (v : SimpleVector T) (index : Nat) (x : T) :
    Except Fault (SimpleVector T) :=
  if index < v.size_ then
    match v.simple_vector_.assign index (some x) with
    | .error e => .error e
    | .ok buf => .ok ⟨buf, v.size_, v.capacity_⟩
  else .error .assertion

/-- Member `At` (both overloads): what is read through the returned reference, or the
exception thrown, together with the vector after the call.  The function assigns
to no member. -/
def At (v : SimpleVector T) (index : Nat) : Except Fault (Option T) × SimpleVector T :=
  if index < v.size_ then (v.simple_vector_.index index, v) else (.error .out_of_range, v)

/-- Member `Clear`. -/
def Clear (v : SimpleVector T) : SimpleVector T := ⟨v.simple_vector_, 0, v.capacity_⟩

/-- The loop of `Resize`,
`for (auto iter = begin() + new_size; iter != end(); --iter) *iter = std::move(Type{})`,
started at position `iter`.  Returns the buffer and the number of iterations run.
Decrementing a position below the start of the buffer is undefined. -/
def Resize_loop [Inhabited T] (end_pos : Nat) :
    ArrayPtr T → Nat → Except Fault (ArrayPtr T × Nat)
  | buf, 0 =>
    if 0 = end_pos then .ok (buf, 0) else
      match buf.assign 0 (some default) with
      | .error e => .error e
      | .ok _ => .error .undefined
  | buf, iter + 1 =>
    if iter + 1 = end_pos then .ok (buf, 0) else
      match buf.assign (iter + 1) (some default) with
      | .error e => .error e
      | .ok buf1 =>
        match Resize_loop end_pos buf1 iter with
        | .error e => .error e
        | .ok (buf2, count) => .ok (buf2, count + 1)

/-- Member `Resize`. -/
def Resize [Inhabited T] (v : SimpleVector T) (new_size : Nat) : Except Fault (SimpleVector T) :=
  if v.size_ ≥ new_size then .ok ⟨v.simple_vector_, new_size, v.capacity_⟩
  else if v.size_ < new_size ∧ v.capacity_ > new_size then
    match Resize_loop v.end_ v.simple_vector_ (v.begin_ + new_size) with
    | .error e => .error e
    | .ok (buf, _) => .ok ⟨buf, new_size, v.capacity_⟩
  else
    match std_move v.simple_vector_ v.begin_ (ArrayPtr.new new_size) 0 (v.end_ - v.begin_) with
    | .error e => .error e
    | .ok helper => .ok ⟨(v.simple_vector_.swap helper).1, new_size, new_size * 2⟩

/-- Member `PushBack(const Type &item)`. -/
def PushBack (v : SimpleVector T) (item : T) : Except Fault (SimpleVector T) :=
  if v.size_ < v.capacity_ then
    match v.simple_vector_.assign v.size_ (some item) with
    | .error e => .error e
    | .ok buf => .ok ⟨buf, v.size_ + 1, v.capacity_⟩
  else
    let new_capacity := max 1 (2 * v.capacity_)
    match std_copy v.simple_vector_ 0 (ArrayPtr.new new_capacity) 0 (v.size_ - 0) with
    | .error e => .error e
    | .ok helper =>
      match helper.assign v.size_ (some item) with
      | .error e => .error e
      | .ok helper1 => .ok ⟨(v.simple_vector_.swap helper1).1, v.size_ + 1, new_capacity⟩

/-- Member `PushBack(Type &&item)`. -/
def PushBackMove (v : SimpleVector T) (item : T) : Except Fault (SimpleVector T) :=
  if v.size_ < v.capacity_ then
    match v.simple_vector_.assign v.size_ (some item) with
    | .error e => .error e
    | .ok buf => .ok ⟨buf, v.size_ + 1, v.capacity_⟩
  else
    let new_capacity := max 1 (2 * v.capacity_)
    match std_move v.simple_vector_ 0 (ArrayPtr.new new_capacity) 0 (v.size_ - 0) with
    | .error e => .error e
    | .ok helper =>
      match helper.assign v.size_ (some item) with
      | .error e => .error e
      | .ok helper1 => .ok ⟨(v.simple_vector_.swap helper1).1, v.size_ + 1, new_capacity⟩

/-- Member `Insert(ConstIterator pos, const Type &value)`: the vector after the call
and the returned position. -/
def Insert (v : SimpleVector T) (pos : Nat) (value : T) : Except Fault (SimpleVector T × Nat) :=
  if pos ≥ v.cbegin ∧ pos ≤ v.cend then
    let pos_element := pos - v.cbegin
    if v.size_ < v.capacity_ then
      match backward_within false v.simple_vector_ v.cend (v.size_ + 1) (v.cend - pos) with
      | .error e => .error e
      | .ok buf =>
        match buf.assign pos_element (some value) with
        | .error e => .error e
        | .ok buf1 => .ok (⟨buf1, v.size_ + 1, v.capacity_⟩, pos_element)
    else
      let new_capacity := max 1 (2 * v.capacity_)
      match std_copy v.simple_vector_ 0 (ArrayPtr.new new_capacity) 0 (pos_element - 0) with
      | .error e => .error e
      | .ok helper =>
        match std_copy_backward v.simple_vector_ v.cend helper (v.size_ + 1) (v.cend - pos) with
        | .error e => .error e
        | .ok helper1 =>
          match helper1.assign pos_element (some value) with
          | .error e => .error e
          | .ok helper2 =>
            .ok (⟨(v.simple_vector_.swap helper2).1, v.size_ + 1, new_capacity⟩, pos_element)
  else .error .assertion

/-- Member `Insert(ConstIterator pos, Type &&value)`. -/
def InsertMove (v : SimpleVector T) (pos : Nat) (value : T) :
    Except Fault (SimpleVector T × Nat) :=
  if pos ≥ v.cbegin ∧ pos ≤ v.cend then
    let no_const_pos := pos
    let pos_element := no_const_pos - v.begin_
    if v.size_ < v.capacity_ then
      match backward_within true v.simple_vector_ v.end_ (v.size_ + 1) (v.end_ - no_const_pos) with
      | .error e => .error e
      | .ok buf =>
        match buf.assign pos_element (some value) with
        | .error e => .error e
        | .ok buf1 => .ok (⟨buf1, v.size_ + 1, v.capacity_⟩, pos_element)
    else
      let new_capacity := max 1 (2 * v.capacity_)
      match std_move v.simple_vector_ 0 (ArrayPtr.new new_capacity) 0 (pos_element - 0) with
      | .error e => .error e
      | .ok helper =>
        match std_move_backward v.simple_vector_ v.end_ helper (v.size_ + 1)
            (v.end_ - no_const_pos) with
        | .error e => .error e
        | .ok helper1 =>
          match helper1.assign pos_element (some value) with
          | .error e => .error e
          | .ok helper2 =>
            .ok (⟨(v.simple_vector_.swap helper2).1, v.size_ + 1, new_capacity⟩, pos_element)
  else .error .assertion

/-- Member `PopBack`. -/
def PopBack (v : SimpleVector T) : SimpleVector T :=
  if v.size_ ≠ 0 then ⟨v.simple_vector_, v.size_ - 1, v.capacity_⟩ else v

/-- Member `Erase`: the vector after the call and the returned position. -/
def Erase (v : SimpleVector T) (pos : Nat) : Except Fault (SimpleVector T × Nat) :=
  if pos ≥ v.cbegin ∧ pos < v.cend then
    let no_const_pos := pos
    let pos_element := no_const_pos - v.begin_
    match forward_within true v.simple_vector_ (no_const_pos + 1) pos_element
        (v.end_ - (no_const_pos + 1)) with
    | .error e => .error e
    | .ok buf => .ok (⟨buf, v.size_ - 1, v.capacity_⟩, pos_element)
  else .error .assertion

/-- Member `swap`: the states of `*this` and of `other` after the call. -/
def swap (v other : SimpleVector T) : SimpleVector T × SimpleVector T :=
  (⟨(v.simple_vector_.swap other.simple_vector_).1, other.size_, other.capacity_⟩,
   ⟨(v.simple_vector_.swap other.simple_vector_).2, v.size_, v.capacity_⟩)

/-- Member `operator=(const SimpleVector &rhs)` for `this != &rhs`: the state of
`*this` after the call (the temporary `helper` is destroyed, `rhs` is not written).
With `this == &rhs` nothing happens at all. -/
def operator_assign (v rhs : SimpleVector T) : Except Fault (SimpleVector T) :=
  match copy rhs with
  | .error e => .error e
  | .ok helper => .ok (v.swap helper).1

/-- The expression `lhs = std::move(rhs)` on two distinct vectors: the states of `lhs`
and of `rhs` afterwards.  The class declares no move assignment operator, and none
is generated (copy constructor, move constructor and copy assignment are
user-declared), so the call binds to `operator=(const SimpleVector &rhs)`, which
does not write `rhs`. -/
def operator_assign_rvalue (lhs rhs : SimpleVector T) :
    Except Fault (SimpleVector T × SimpleVector T) :=
  match operator_assign lhs rhs with
  | .error e => .error e
  | .ok w => .ok (w, rhs)

/-- The function template `operator==`, with the element type's `operator==` given
as `eq`. -/
def operator_eq (eq : T → T → Bool) (lhs rhs : SimpleVector T) : Except Fault Bool :=
  if lhs.GetSize ≠ rhs.GetSize then .ok false
  else std_equal eq lhs.simple_vector_ rhs.simple_vector_ lhs.cbegin rhs.cbegin
    (lhs.cend - lhs.cbegin)

/-- The function template `operator!=`. -/
def operator_ne (eq : T → T → Bool) (lhs rhs : SimpleVector T) : Except Fault Bool :=
  match operator_eq eq lhs rhs with
  | .error e => .error e
  | .ok r => .ok (!r)

/-- The function template `operator<`, with the element type's `operator<` given as
`lt`. -/
def operator_lt (lt : T → T → Bool) (lhs rhs : SimpleVector T) : Except Fault Bool :=
  std_lexicographical_compare lt lhs.simple_vector_ rhs.simple_vector_
    lhs.cbegin (lhs.cend - lhs.cbegin) rhs.cbegin (rhs.cend - rhs.cbegin)

/-- The function template `operator<=`. -/
def operator_le (lt : T → T → Bool) (lhs rhs : SimpleVector T) : Except Fault Bool :=
  match operator_lt lt rhs lhs with
  | .error e => .error e
  | .ok r => .ok (!r)

/-- The function template `operator>`. -/
def operator_gt (lt : T → T → Bool) (lhs rhs : SimpleVector T) : Except Fault Bool :=
  operator_lt lt rhs lhs

/-- The function template `operator>=`. -/
def operator_ge (lt : T → T → Bool) (lhs rhs : SimpleVector T) : Except Fault Bool :=
  match operator_lt lt lhs rhs with
  | .error e => .error e
  | .ok r => .ok (!r)

/-- The requirements on the element type for the comparison laws: `eq` (its
`operator==`) is an equivalence, `lt` (its `operator<`) is a strict total order,
and `lt` respects `eq`. -/
structure ElemOrder (eq lt : T → T → Bool) : Prop where
  eq_refl : ∀ x, eq x x = true
  eq_symm : ∀ x y, eq x y = true → eq y x = true
  eq_trans : ∀ x y z, eq x y = true → eq y z = true → eq x z = true
  lt_irrefl : ∀ x, lt x x = false
  lt_trans : ∀ x y z, lt x y = true → lt y z = true → lt x z = true
  lt_total : ∀ x y, lt x y = true ∨ eq x y = true ∨ lt y x = true
  lt_congr : ∀ x x1 y y1, eq x x1 = true → eq y y1 = true → lt x y = lt x1 y1

/-- Spec side: the strict lexicographic order on element sequences.  A sequence is
smaller when it is a proper prefix of the other, or when at the first position
where the two differ its element is the smaller one. -/
def spec_lexicographic_lt (eq lt : T → T → Bool) : List T → List T → Bool
  | [], [] => false
  | [], _ :: _ => true
  | _ :: _, [] => false
  | x :: xs, y :: ys => lt x y || (eq x y && spec_lexicographic_lt eq lt xs ys)

/-- Spec side: two element sequences are pairwise equal (which includes that they
have the same length). -/
def spec_pairwise_equal (eq : T → T → Bool) : List T → List T → Bool
  | [], [] => true
  | [], _ :: _ => false
  | _ :: _, [] => false
  | x :: xs, y :: ys => eq x y && spec_pairwise_equal eq xs ys

/-- The vector `v` holds the element sequence `xs`: its `size_` live slots lie inside
the buffer and hold the values `xs`, in order. -/
def holds (v : SimpleVector T) (xs : List T) : Prop :=
  v.live = xs.map some ∧ xs.length = v.size_

instance holds_decidable [DecidableEq T] (v : SimpleVector T) (xs : List T) :
    Decidable (v.holds xs) := by
  unfold holds
  exact inferInstance

/-- One call of a member function that can change size or capacity, with its
arguments. -/
inductive Op (T : Type) where
  | Clear
  | Resize (new_size : Nat)
  | PushBack (item : T)
  | PushBackMove (item : T)
  | Insert (pos : Nat) (value : T)
  | InsertMove (pos : Nat) (value : T)
  | PopBack
  | Erase (pos : Nat)
  | Reserve (new_capacity : Nat)

/-- The precondition of a call: `Insert` wants a position in `[cbegin(), cend()]`,
`Erase` a position in `[cbegin(), cend())`, the others want nothing. -/
def Op.pre (v : SimpleVector T) : Op T → Prop
  | .Insert pos _ => pos ≥ v.cbegin ∧ pos ≤ v.cend
  | .InsertMove pos _ => pos ≥ v.cbegin ∧ pos ≤ v.cend
  | .Erase pos => pos ≥ v.cbegin ∧ pos < v.cend
  | _ => True

instance Op.pre_decidable (v : SimpleVector T) (op : Op T) : Decidable (op.pre v) := by
  cases op <;> unfold Op.pre <;> exact inferInstance

/-- The vector after one call. -/
def call [Inhabited T] (v : SimpleVector T) : Op T → Except Fault (SimpleVector T)
  | .Clear => .ok (Clear v)
  | .Resize new_size => Resize v new_size
  | .PushBack item => PushBack v item
  | .PushBackMove item => PushBackMove v item
  | .Insert pos value => (Insert v pos value).map Prod.fst
  | .InsertMove pos value => (InsertMove v pos value).map Prod.fst
  | .PopBack => .ok (PopBack v)
  | .Erase pos => (Erase v pos).map Prod.fst
  | .Reserve new_capacity => Reserve v new_capacity

/-- The vector after a sequence of calls, in order. -/
def call_all [Inhabited T] : SimpleVector T → List (Op T) → Except Fault (SimpleVector T)
  | v, [] => .ok v
  | v, op :: rest =>
    match call v op with
    | .error e => .error e
    | .ok v1 => call_all v1 rest

/-- A sequence of `PushBack` calls on one vector, in order.  Each entry gives the
overload called (`true` for `PushBack(Type &&)`) and the item. -/
def push_all : SimpleVector T → List (Bool × T) → Except Fault (SimpleVector T)
  | v, [] => .ok v
  | v, (mv, item) :: rest =>
    match (if mv then PushBackMove v item else PushBack v item) with
    | .error e => .error e
    | .ok v1 => push_all v1 rest

/-- The states of the vector objects of a program that uses the public interface:
every constructor gives a state, and every member function that returns takes
states to states.  Calls that do not return (a fault) give no state. -/
inductive Reachable [Inhabited T] : SimpleVector T → Prop
  | empty : Reachable empty
  | with_size (size : Nat) (v : SimpleVector T) :
      with_size size = .ok v → Reachable v
  | with_size_fill (size : Nat) (value : T) (v : SimpleVector T) :
      with_size_fill size value = .ok v → Reachable v
  | from_sequence (init : List T) (v : SimpleVector T) :
      from_sequence init = .ok v → Reachable v
  | from_reservation (capacity_to_reserve : Nat) (v : SimpleVector T) :
      from_reservation capacity_to_reserve = .ok v → Reachable v
  | copy (other v : SimpleVector T) :
      Reachable other → copy other = .ok v → Reachable v
  | move_new (other : SimpleVector T) :
      Reachable other → Reachable (move other).1
  | move_old (other : SimpleVector T) :
      Reachable other → Reachable (move other).2
  | operator_index_assign (v : SimpleVector T) (index : Nat) (x : T) (w : SimpleVector T) :
      Reachable v → operator_index_assign v index x = .ok w → Reachable w
  | Clear (v : SimpleVector T) :
      Reachable v → Reachable (Clear v)
  | Resize (v : SimpleVector T) (new_size : Nat) (w : SimpleVector T) :
      Reachable v → Resize v new_size = .ok w → Reachable w
  | PushBack (v : SimpleVector T) (item : T) (w : SimpleVector T) :
      Reachable v → PushBack v item = .ok w → Reachable w
  | PushBackMove (v : SimpleVector T) (item : T) (w : SimpleVector T) :
      Reachable v → PushBackMove v item = .ok w → Reachable w
  | Insert (v : SimpleVector T) (pos : Nat) (value : T) (w : SimpleVector T) (p : Nat) :
      Reachable v → Insert v pos value = .ok (w, p) → Reachable w
  | InsertMove (v : SimpleVector T) (pos : Nat) (value : T) (w : SimpleVector T) (p : Nat) :
      Reachable v → InsertMove v pos value = .ok (w, p) → Reachable w
  | PopBack (v : SimpleVector T) :
      Reachable v → Reachable (PopBack v)
  | Erase (v : SimpleVector T) (pos : Nat) (w : SimpleVector T) (p : Nat) :
      Reachable v → Erase v pos = .ok (w, p) → Reachable w
  | swap_this (v other : SimpleVector T) :
      Reachable v → Reachable other → Reachable (swap v other).1
  | swap_other (v other : SimpleVector T) :
      Reachable v → Reachable other → Reachable (swap v other).2
  | Reserve (v : SimpleVector T) (new_capacity : Nat) (w : SimpleVector T) :
      Reachable v → Reserve v new_capacity = .ok w → Reachable w
  | operator_assign (v rhs w : SimpleVector T) :
      Reachable v → Reachable rhs → operator_assign v rhs = .ok w → Reachable w

end SimpleVector

/-! ## The buffer primitives -/

section primitives

variable {T : Type}

theorem ArrayPtr.index_ok {a : ArrayPtr T} {i : Nat} {x : Option T}
    (h : a.raw_ptr_[i]? = some x) : a.index i = .ok x := by
  simp [ArrayPtr.index, h]

theorem ArrayPtr.index_eq_ok {a : ArrayPtr T} {i : Nat} {x : Option T}
    (h : a.index i = .ok x) : a.raw_ptr_[i]? = some x := by
  unfold ArrayPtr.index at h
  split at h
  · rename_i y hy
    cases h
    exact hy
  · cases h

theorem ArrayPtr.index_lt {a : ArrayPtr T} {i : Nat} (h : i < a.raw_ptr_.length) :
    a.index i = .ok (a.raw_ptr_[i]) :=
  ArrayPtr.index_ok (List.getElem?_eq_getElem h)

theorem ArrayPtr.assign_lt {a : ArrayPtr T} {i : Nat} (x : Option T)
    (h : i < a.raw_ptr_.length) : a.assign i x = .ok ⟨a.raw_ptr_.set i x⟩ := by
  simp [ArrayPtr.assign, h]

theorem ArrayPtr.assign_eq_ok {a b : ArrayPtr T} {i : Nat} {x : Option T}
    (h : a.assign i x = .ok b) : i < a.raw_ptr_.length ∧ b = ⟨a.raw_ptr_.set i x⟩ := by
  unfold ArrayPtr.assign at h
  split at h
  · rename_i hi
    cases h
    exact ⟨hi, rfl⟩
  · cases h

/-- What `std_fill` returns when the range lies inside the buffer. -/
theorem std_fill_spec (value : T) (n : Nat) :
    ∀ (buf : ArrayPtr T) (first : Nat), first + n ≤ buf.raw_ptr_.length →
      ∃ r : ArrayPtr T, std_fill value buf first n = .ok r ∧
        r.raw_ptr_.length = buf.raw_ptr_.length ∧
        ∀ j, r.raw_ptr_[j]? =
          if first ≤ j ∧ j < first + n then some (some value) else buf.raw_ptr_[j]? := by
  induction n with
  | zero =>
    intro buf first _
    refine ⟨buf, rfl, rfl, ?_⟩
    intro j
    have : ¬ (first ≤ j ∧ j < first + 0) := by omega
    rw [if_neg this]
  | succ n ih =>
    intro buf first h
    have h1 : first < buf.raw_ptr_.length := by omega
    obtain ⟨r, hr, hlen, hget⟩ := ih ⟨buf.raw_ptr_.set first (some value)⟩ (first + 1)
      (by simp; omega)
    refine ⟨r, ?_, ?_, ?_⟩
    · simp [std_fill, ArrayPtr.assign_lt _ h1, hr]
    · simpa using hlen
    · intro j
      rw [hget j]
      simp only [List.getElem?_set]
      by_cases hj : first = j
      · subst hj
        simp [h1]
      · by_cases hj2 : first + 1 ≤ j ∧ j < first + 1 + n
        · have : first ≤ j ∧ j < first + (n + 1) := by omega
          simp [hj2, this]
        · have : ¬ (first ≤ j ∧ j < first + (n + 1)) := by omega
          simp [hj2, this, hj]

/-- What `std_copy` returns when source and destination ranges lie inside their
buffers. -/
theorem std_copy_spec (src : ArrayPtr T) (n : Nat) :
    ∀ (first : Nat) (dst : ArrayPtr T) (d_first : Nat),
      first + n ≤ src.raw_ptr_.length → d_first + n ≤ dst.raw_ptr_.length →
      ∃ r : ArrayPtr T, std_copy src first dst d_first n = .ok r ∧
        r.raw_ptr_.length = dst.raw_ptr_.length ∧
        ∀ j, r.raw_ptr_[j]? =
          if d_first ≤ j ∧ j < d_first + n then src.raw_ptr_[first + (j - d_first)]?
          else dst.raw_ptr_[j]? := by
  induction n with
  | zero =>
    intro first dst d_first _ _
    refine ⟨dst, rfl, rfl, ?_⟩
    intro j
    have : ¬ (d_first ≤ j ∧ j < d_first + 0) := by omega
    rw [if_neg this]
  | succ n ih =>
    intro first dst d_first h1 h2
    have hs : first < src.raw_ptr_.length := by omega
    have hd : d_first < dst.raw_ptr_.length := by omega
    obtain ⟨r, hr, hlen, hget⟩ := ih (first + 1) ⟨dst.raw_ptr_.set d_first (src.raw_ptr_[first])⟩
      (d_first + 1) (by omega) (by simp; omega)
    refine ⟨r, ?_, ?_, ?_⟩
    · simp [std_copy, ArrayPtr.index_lt hs, ArrayPtr.assign_lt _ hd, hr]
    · simpa using hlen
    · intro j
      rw [hget j]
      simp only [List.getElem?_set]
      by_cases hj : d_first = j
      · subst hj
        simp [hd, List.getElem?_eq_getElem hs]
      · by_cases hj2 : d_first + 1 ≤ j ∧ j < d_first + 1 + n
        · have h3 : d_first ≤ j ∧ j < d_first + (n + 1) := by omega
          have h4 : first + 1 + (j - (d_first + 1)) = first + (j - d_first) := by omega
          simp [hj2, h3, h4]
        · have h3 : ¬ (d_first ≤ j ∧ j < d_first + (n + 1)) := by omega
          simp [hj2, h3, hj]

/-- What `std_copy_backward` returns when source and destination ranges lie inside
their buffers. -/
theorem std_copy_backward_spec (src : ArrayPtr T) (n : Nat) :
    ∀ (last : Nat) (dst : ArrayPtr T) (d_last : Nat),
      n ≤ last → last ≤ src.raw_ptr_.length → n ≤ d_last → d_last ≤ dst.raw_ptr_.length →
      ∃ r : ArrayPtr T, std_copy_backward src last dst d_last n = .ok r ∧
        r.raw_ptr_.length = dst.raw_ptr_.length ∧
        ∀ j, r.raw_ptr_[j]? =
          if d_last - n ≤ j ∧ j < d_last then src.raw_ptr_[last - (d_last - j)]?
          else dst.raw_ptr_[j]? := by
  induction n with
  | zero =>
    intro last dst d_last _ _ _ _
    refine ⟨dst, rfl, rfl, ?_⟩
    intro j
    have : ¬ (d_last - 0 ≤ j ∧ j < d_last) := by omega
    rw [if_neg this]
  | succ n ih =>
    intro last dst d_last h0 h1 h2 h3
    have hs : last - 1 < src.raw_ptr_.length := by omega
    have hd : d_last - 1 < dst.raw_ptr_.length := by omega
    obtain ⟨r, hr, hlen, hget⟩ := ih (last - 1)
      ⟨dst.raw_ptr_.set (d_last - 1) (src.raw_ptr_[last - 1])⟩ (d_last - 1)
      (by omega) (by omega) (by omega) (by simp; omega)
    refine ⟨r, ?_, ?_, ?_⟩
    · simp [std_copy_backward, ArrayPtr.index_lt hs, ArrayPtr.assign_lt _ hd, hr]
    · simpa using hlen
    · intro j
      rw [hget j]
      simp only [List.getElem?_set]
      by_cases hj : d_last - 1 = j
      · have h4 : ¬ (d_last - 1 - n ≤ j ∧ j < d_last - 1) := by omega
        have h5 : d_last - (n + 1) ≤ j ∧ j < d_last := by omega
        have h6 : last - (d_last - j) = last - 1 := by omega
        rw [if_neg h4, if_pos hj, if_pos hd, if_pos h5, h6, List.getElem?_eq_getElem hs]
      · by_cases hj2 : d_last - 1 - n ≤ j ∧ j < d_last - 1
        · have h5 : d_last - (n + 1) ≤ j ∧ j < d_last := by omega
          have h6 : last - 1 - (d_last - 1 - j) = last - (d_last - j) := by omega
          rw [if_pos hj2, if_pos h5, h6]
        · have h5 : ¬ (d_last - (n + 1) ≤ j ∧ j < d_last) := by omega
          rw [if_neg hj2, if_neg hj, if_neg h5]

/-- A call that returns leaves the slot count unchanged and had both positions inside
the buffer. -/
theorem transfer_eq_ok {mv : Bool} {buf r : ArrayPtr T} {s d : Nat}
    (h : transfer mv buf s d = .ok r) :
    r.raw_ptr_.length = buf.raw_ptr_.length ∧ s < buf.raw_ptr_.length ∧
      d < buf.raw_ptr_.length := by
  unfold transfer at h
  split at h
  · cases h
  · rename_i x hx
    have hs : s < buf.raw_ptr_.length := by
      have := ArrayPtr.index_eq_ok hx
      exact (List.getElem?_eq_some.mp this).1
    split at h
    · cases h
    · rename_i buf1 hb
      obtain ⟨hd, rfl⟩ := ArrayPtr.assign_eq_ok hb
      cases mv
      · simp at h
        subst h
        simp [hs, hd]
      · simp at h
        obtain ⟨_, rfl⟩ := ArrayPtr.assign_eq_ok h
        simp [hs, hd]

/-- What `transfer` returns for two distinct positions inside the buffer. -/
theorem transfer_spec (mv : Bool) (buf : ArrayPtr T) (s d : Nat)
    (hs : s < buf.raw_ptr_.length) (hd : d < buf.raw_ptr_.length) (hsd : s ≠ d) :
    ∃ r : ArrayPtr T, transfer mv buf s d = .ok r ∧
      r.raw_ptr_.length = buf.raw_ptr_.length ∧
      ∀ j, r.raw_ptr_[j]? =
        if j = d then buf.raw_ptr_[s]?
        else if j = s ∧ mv = true then some none else buf.raw_ptr_[j]? := by
  cases mv
  · refine ⟨⟨buf.raw_ptr_.set d (buf.raw_ptr_[s])⟩, ?_, by simp, ?_⟩
    · simp [transfer, ArrayPtr.index_lt hs, ArrayPtr.assign_lt _ hd]
    · intro j
      simp only [List.getElem?_set]
      by_cases hj : d = j
      · subst hj
        simp [hd, List.getElem?_eq_getElem hs]
      · have : ¬ j = d := fun h => hj h.symm
        simp [hj, this]
  · refine ⟨⟨(buf.raw_ptr_.set d (buf.raw_ptr_[s])).set s none⟩, ?_, by simp, ?_⟩
    · have hs1 : s < (buf.raw_ptr_.set d (buf.raw_ptr_[s])).length := by simpa using hs
      have ha : (⟨buf.raw_ptr_.set d (buf.raw_ptr_[s])⟩ : ArrayPtr T).assign s none
          = .ok ⟨(buf.raw_ptr_.set d (buf.raw_ptr_[s])).set s none⟩ :=
        ArrayPtr.assign_lt _ hs1
      simp [transfer, ArrayPtr.index_lt hs, ArrayPtr.assign_lt _ hd, ha]
    · intro j
      simp only [List.getElem?_set, List.length_set]
      by_cases hj : d = j
      · subst hj
        simp [hd, hsd, List.getElem?_eq_getElem hs]
      · have h1 : ¬ j = d := fun h => hj h.symm
        by_cases hj2 : s = j
        · subst hj2
          simp [hs, h1]
        · have h2 : ¬ j = s := fun h => hj2 h.symm
          simp [hj, h1, hj2, h2]

/-- A returning `forward_within` leaves the slot count unchanged. -/
theorem forward_within_length (mv : Bool) (n : Nat) :
    ∀ (buf r : ArrayPtr T) (first d_first : Nat),
      forward_within mv buf first d_first n = .ok r →
      r.raw_ptr_.length = buf.raw_ptr_.length := by
  induction n with
  | zero =>
    intro buf r first d_first h
    simp [forward_within] at h
    rw [h]
  | succ n ih =>
    intro buf r first d_first h
    unfold forward_within at h
    split at h
    · cases h
    · rename_i buf1 hb
      rw [ih _ _ _ _ h, (transfer_eq_ok hb).1]

/-- What `forward_within` returns when it shifts `n` slots one place to the left. -/
theorem forward_within_spec (mv : Bool) (n : Nat) :
    ∀ (buf : ArrayPtr T) (d_first : Nat), d_first + 1 + n ≤ buf.raw_ptr_.length →
      ∃ r : ArrayPtr T, forward_within mv buf (d_first + 1) d_first n = .ok r ∧
        r.raw_ptr_.length = buf.raw_ptr_.length ∧
        ∀ j, r.raw_ptr_[j]? =
          if d_first ≤ j ∧ j < d_first + n then buf.raw_ptr_[j + 1]?
          else if j = d_first + n ∧ mv = true ∧ 0 < n then some none
          else buf.raw_ptr_[j]? := by
  induction n with
  | zero =>
    intro buf d_first _
    refine ⟨buf, rfl, rfl, ?_⟩
    intro j
    have h1 : ¬ (d_first ≤ j ∧ j < d_first + 0) := by omega
    have h2 : ¬ (j = d_first + 0 ∧ mv = true ∧ 0 < 0) := by omega
    rw [if_neg h1, if_neg h2]
  | succ n ih =>
    intro buf d_first h
    obtain ⟨b1, hb1, hlen1, hget1⟩ := transfer_spec mv buf (d_first + 1) d_first
      (by omega) (by omega) (by omega)
    obtain ⟨r, hr, hlen, hget⟩ := ih b1 (d_first + 1) (by omega)
    refine ⟨r, ?_, by omega, ?_⟩
    · simp [forward_within, hb1, hr]
    · intro j
      rw [hget j]
      by_cases c1 : d_first + 1 ≤ j ∧ j < d_first + 1 + n
      · have c2 : d_first ≤ j ∧ j < d_first + (n + 1) := by omega
        have c3 : ¬ j + 1 = d_first := by omega
        have c4 : ¬ (j + 1 = d_first + 1 ∧ mv = true) := by omega
        rw [if_pos c1, if_pos c2, hget1, if_neg c3, if_neg c4]
      · rw [if_neg c1]
        by_cases c2 : j = d_first + 1 + n ∧ mv = true ∧ 0 < n
        · have c3 : ¬ (d_first ≤ j ∧ j < d_first + (n + 1)) := by omega
          have c4 : j = d_first + (n + 1) ∧ mv = true ∧ 0 < n + 1 := by
            refine ⟨by omega, c2.2.1, by omega⟩
          rw [if_pos c2, if_neg c3, if_pos c4]
        · rw [if_neg c2, hget1]
          by_cases c3 : j = d_first
          · have c4 : d_first ≤ j ∧ j < d_first + (n + 1) := by omega
            rw [if_pos c3, if_pos c4, c3]
          · rw [if_neg c3]
            have c4 : ¬ (d_first ≤ j ∧ j < d_first + (n + 1)) := by omega
            rw [if_neg c4]
            by_cases c5 : j = d_first + 1 ∧ mv = true
            · have c6 : j = d_first + (n + 1) ∧ mv = true ∧ 0 < n + 1 := by
                refine ⟨?_, c5.2, by omega⟩
                by_contra hne
                exact c2 ⟨by omega, c5.2, by omega⟩
              rw [if_pos c5, if_pos c6]
            · rw [if_neg c5]
              by_cases c6 : j = d_first + (n + 1) ∧ mv = true ∧ 0 < n + 1
              · exfalso
                by_cases hn : n = 0
                · exact c5 ⟨by omega, c6.2.1⟩
                · exact c2 ⟨by omega, c6.2.1, by omega⟩
              · rw [if_neg c6]

/-- A returning `backward_within` leaves the slot count unchanged, and if it moved
at least one slot, the slot just before `d_last` exists. -/
theorem backward_within_eq_ok (mv : Bool) (n : Nat) :
    ∀ (buf r : ArrayPtr T) (last d_last : Nat),
      backward_within mv buf last d_last n = .ok r →
      r.raw_ptr_.length = buf.raw_ptr_.length ∧ (0 < n → d_last - 1 < buf.raw_ptr_.length) := by
  induction n with
  | zero =>
    intro buf r last d_last h
    simp [backward_within] at h
    rw [h]
    exact ⟨rfl, fun h0 => absurd h0 (by omega)⟩
  | succ n ih =>
    intro buf r last d_last h
    unfold backward_within at h
    split at h
    · cases h
    · rename_i buf1 hb
      have h1 := transfer_eq_ok hb
      exact ⟨by rw [(ih _ _ _ _ h).1, h1.1], fun _ => h1.2.2⟩

/-- What `backward_within` returns when it shifts `n` slots one place to the right. -/
theorem backward_within_spec (mv : Bool) (n : Nat) :
    ∀ (buf : ArrayPtr T) (last : Nat), n ≤ last → last < buf.raw_ptr_.length →
      ∃ r : ArrayPtr T, backward_within mv buf last (last + 1) n = .ok r ∧
        r.raw_ptr_.length = buf.raw_ptr_.length ∧
        ∀ j, r.raw_ptr_[j]? =
          if last - n < j ∧ j ≤ last then buf.raw_ptr_[j - 1]?
          else if j = last - n ∧ mv = true ∧ 0 < n then some none
          else buf.raw_ptr_[j]? := by
  induction n with
  | zero =>
    intro buf last _ _
    refine ⟨buf, rfl, rfl, ?_⟩
    intro j
    have h1 : ¬ (last - 0 < j ∧ j ≤ last) := by omega
    have h2 : ¬ (j = last - 0 ∧ mv = true ∧ 0 < 0) := by omega
    rw [if_neg h1, if_neg h2]
  | succ n ih =>
    intro buf last h0 h
    obtain ⟨b1, hb1, hlen1, hget1⟩ := transfer_spec mv buf (last - 1) last
      (by omega) (by omega) (by omega)
    obtain ⟨r, hr, hlen, hget⟩ := ih b1 (last - 1) (by omega) (by omega)
    have e1 : last - 1 + 1 = last := by omega
    rw [e1] at hr
    refine ⟨r, ?_, by omega, ?_⟩
    · simp [backward_within, hb1, hr]
    · intro j
      rw [hget j]
      by_cases c1 : last - 1 - n < j ∧ j ≤ last - 1
      · have c2 : last - (n + 1) < j ∧ j ≤ last := by omega
        have c3 : ¬ j - 1 = last := by omega
        have c4 : ¬ (j - 1 = last - 1 ∧ mv = true) := by omega
        rw [if_pos c1, if_pos c2, hget1, if_neg c3, if_neg c4]
      · rw [if_neg c1]
        by_cases c2 : j = last - 1 - n ∧ mv = true ∧ 0 < n
        · have c3 : ¬ (last - (n + 1) < j ∧ j ≤ last) := by omega
          have c4 : j = last - (n + 1) ∧ mv = true ∧ 0 < n + 1 := by
            refine ⟨by omega, c2.2.1, by omega⟩
          rw [if_pos c2, if_neg c3, if_pos c4]
        · rw [if_neg c2, hget1]
          by_cases c3 : j = last
          · have c4 : last - (n + 1) < j ∧ j ≤ last := by omega
            rw [if_pos c3, if_pos c4, c3]
          · rw [if_neg c3]
            have c4 : ¬ (last - (n + 1) < j ∧ j ≤ last) := by omega
            rw [if_neg c4]
            by_cases c5 : j = last - 1 ∧ mv = true
            · have c6 : j = last - (n + 1) ∧ mv = true ∧ 0 < n + 1 := by
                refine ⟨?_, c5.2, by omega⟩
                by_contra hne
                exact c2 ⟨by omega, c5.2, by omega⟩
              rw [if_pos c5, if_pos c6]
            · rw [if_neg c5]
              by_cases c6 : j = last - (n + 1) ∧ mv = true ∧ 0 < n + 1
              · exfalso
                by_cases hn : n = 0
                · exact c5 ⟨by omega, c6.2.1⟩
                · exact c2 ⟨by omega, c6.2.1, by omega⟩
              · rw [if_neg c6]

end primitives

/-! ## The loop of Resize -/

section resize_loop

variable {T : Type} [Inhabited T]

/-- A returning `Resize_loop` leaves the slot count unchanged, and if it ran at all,
its starting slot exists. -/
theorem Resize_loop_eq_ok (end_pos : Nat) (iter : Nat) :
    ∀ (buf r : ArrayPtr T) (count : Nat),
      SimpleVector.Resize_loop end_pos buf iter = .ok (r, count) →
      r.raw_ptr_.length = buf.raw_ptr_.length ∧
        (iter ≠ end_pos → iter < buf.raw_ptr_.length) := by
  induction iter with
  | zero =>
    intro buf r count h
    unfold SimpleVector.Resize_loop at h
    split at h
    · rename_i he
      cases h
      exact ⟨rfl, fun hne => absurd he hne⟩
    · split at h <;> cases h
  | succ iter ih =>
    intro buf r count h
    unfold SimpleVector.Resize_loop at h
    split at h
    · rename_i he
      cases h
      exact ⟨rfl, fun hne => absurd he hne⟩
    · split at h
      · cases h
      · rename_i buf1 hb
        obtain ⟨hlt, rfl⟩ := ArrayPtr.assign_eq_ok hb
        split at h
        · cases h
        · rename_i buf2 c hl
          cases h
          have := (ih _ _ _ hl).1
          exact ⟨by simpa using this, fun _ => hlt⟩

/-- What `Resize_loop` returns when started at or above its end position, inside
the buffer. -/
theorem Resize_loop_spec (end_pos : Nat) (iter : Nat) :
    ∀ (buf : ArrayPtr T), end_pos ≤ iter → (end_pos < iter → iter < buf.raw_ptr_.length) →
      ∃ r : ArrayPtr T, SimpleVector.Resize_loop end_pos buf iter = .ok (r, iter - end_pos) ∧
        r.raw_ptr_.length = buf.raw_ptr_.length ∧
        ∀ j, r.raw_ptr_[j]? =
          if end_pos < j ∧ j ≤ iter then some (some default) else buf.raw_ptr_[j]? := by
  induction iter with
  | zero =>
    intro buf h0 _
    have he : end_pos = 0 := by omega
    subst he
    refine ⟨buf, by simp [SimpleVector.Resize_loop], rfl, ?_⟩
    intro j
    have : ¬ (0 < j ∧ j ≤ 0) := by omega
    rw [if_neg this]
  | succ iter ih =>
    intro buf h0 h1
    by_cases he : iter + 1 = end_pos
    · refine ⟨buf, by simp [SimpleVector.Resize_loop, he], rfl, ?_⟩
      intro j
      have : ¬ (end_pos < j ∧ j ≤ iter + 1) := by omega
      rw [if_neg this]
    · have hlt : iter + 1 < buf.raw_ptr_.length := h1 (by omega)
      obtain ⟨r, hr, hlen, hget⟩ := ih ⟨buf.raw_ptr_.set (iter + 1) (some default)⟩
        (by omega) (by intro _; simp; omega)
      refine ⟨r, ?_, by simpa using hlen, ?_⟩
      · have e : iter + 1 - end_pos = iter - end_pos + 1 := by omega
        simp [SimpleVector.Resize_loop, he, ArrayPtr.assign_lt _ hlt, hr, e]
      · intro j
        rw [hget j]
        simp only [List.getElem?_set]
        by_cases c1 : end_pos < j ∧ j ≤ iter
        · have c2 : end_pos < j ∧ j ≤ iter + 1 := by omega
          rw [if_pos c1, if_pos c2]
        · rw [if_neg c1]
          by_cases c3 : iter + 1 = j
          · have c2 : end_pos < j ∧ j ≤ iter + 1 := by omega
            rw [if_pos c3, if_pos hlt, if_pos c2]
          · have c2 : ¬ (end_pos < j ∧ j ≤ iter + 1) := by omega
            rw [if_neg c3, if_neg c2]

end resize_loop

/-! ## Shifting and inserting inside buffers -/

section buffers

variable {T : Type}

/-- The in-place path of `Insert`: shift `[k, size)` right by one and assign slot `k`. -/
theorem insert_in_place (mv : Bool) (buf : ArrayPtr T) (size k : Nat) (x : T)
    (hk : k ≤ size) (hs : size < buf.raw_ptr_.length) :
    ∃ b r : ArrayPtr T, backward_within mv buf size (size + 1) (size - k) = .ok b ∧
      b.assign k (some x) = .ok r ∧
      r.raw_ptr_.length = buf.raw_ptr_.length ∧
      r.raw_ptr_.take (size + 1)
        = (buf.raw_ptr_.take size).take k ++ some x :: (buf.raw_ptr_.take size).drop k := by
  obtain ⟨b, hb, hlen, hget⟩ := backward_within_spec mv (size - k) buf size (by omega) hs
  have hkb : k < b.raw_ptr_.length := by omega
  refine ⟨b, ⟨b.raw_ptr_.set k (some x)⟩, hb, ArrayPtr.assign_lt _ hkb, by simpa using hlen, ?_⟩
  apply List.ext_getElem?
  intro j
  simp only [List.getElem?_take, List.getElem?_set, List.getElem?_append, List.getElem?_cons,
    List.getElem?_drop, List.length_take, hget]
  have e1 : min k (min size buf.raw_ptr_.length) = k := by omega
  rw [e1]
  by_cases c1 : j < k
  · have c2 : j < size + 1 := by omega
    have c3 : ¬ k = j := by omega
    have c4 : ¬ (size - (size - k) < j ∧ j ≤ size) := by omega
    have c5 : ¬ (j = size - (size - k) ∧ mv = true ∧ 0 < size - k) := by omega
    have c6 : j < size := by omega
    rw [if_pos c2, if_neg c3, if_neg c4, if_neg c5, if_pos c1, if_pos c1, if_pos c6]
  · rw [if_neg c1]
    by_cases c2 : k = j
    · have c3 : j < size + 1 := by omega
      have c4 : j - k = 0 := by omega
      rw [if_pos c3, if_pos c2, if_pos hkb, if_pos c4]
    · have c4 : ¬ j - k = 0 := by omega
      rw [if_neg c2, if_neg c4]
      by_cases c3 : j < size + 1
      · have c5 : size - (size - k) < j ∧ j ≤ size := by omega
        have c6 : k + (j - k - 1) < size := by omega
        have c7 : k + (j - k - 1) = j - 1 := by omega
        rw [if_pos c3, if_pos c5, if_pos c6, c7]
      · have c6 : ¬ k + (j - k - 1) < size := by omega
        rw [if_neg c3, if_neg c6]

/-- The reallocating path of `Insert`: copy `[0, k)`, copy `[k, size)` one place
further, assign slot `k` of the new buffer. -/
theorem insert_realloc (buf : ArrayPtr T) (size k cap : Nat) (x : T)
    (hk : k ≤ size) (hs : size ≤ buf.raw_ptr_.length) (hc : size < cap) :
    ∃ h h1 r : ArrayPtr T, std_copy buf 0 (ArrayPtr.new cap) 0 k = .ok h ∧
      std_copy_backward buf size h (size + 1) (size - k) = .ok h1 ∧
      h1.assign k (some x) = .ok r ∧
      r.raw_ptr_.length = cap ∧
      r.raw_ptr_.take (size + 1)
        = (buf.raw_ptr_.take size).take k ++ some x :: (buf.raw_ptr_.take size).drop k := by
  have hn : (ArrayPtr.new cap : ArrayPtr T).raw_ptr_.length = cap := by simp [ArrayPtr.new]
  obtain ⟨h, hh, hlen, hget⟩ := std_copy_spec buf k 0 (ArrayPtr.new cap) 0 (by omega)
    (by rw [hn]; omega)
  obtain ⟨h1, hh1, hlen1, hget1⟩ := std_copy_backward_spec buf (size - k) size h (size + 1)
    (by omega) hs (by omega) (by omega)
  have hkb : k < h1.raw_ptr_.length := by omega
  refine ⟨h, h1, ⟨h1.raw_ptr_.set k (some x)⟩, hh, hh1, ArrayPtr.assign_lt _ hkb,
    by simp; omega, ?_⟩
  apply List.ext_getElem?
  intro j
  simp only [List.getElem?_take, List.getElem?_set, List.getElem?_append, List.getElem?_cons,
    List.getElem?_drop, List.length_take, hget1, hget]
  have e1 : min k (min size buf.raw_ptr_.length) = k := by omega
  rw [e1]
  by_cases c1 : j < k
  · have c2 : j < size + 1 := by omega
    have c3 : ¬ k = j := by omega
    have c4 : ¬ (size + 1 - (size - k) ≤ j ∧ j < size + 1) := by omega
    have c5 : 0 ≤ j ∧ j < 0 + k := by omega
    have c6 : j < size := by omega
    have c7 : 0 + (j - 0) = j := by omega
    rw [if_pos c2, if_neg c3, if_neg c4, if_pos c5, if_pos c1, if_pos c1, if_pos c6, c7]
  · rw [if_neg c1]
    by_cases c2 : k = j
    · have c3 : j < size + 1 := by omega
      have c4 : j - k = 0 := by omega
      rw [if_pos c3, if_pos c2, if_pos hkb, if_pos c4]
    · have c4 : ¬ j - k = 0 := by omega
      rw [if_neg c2, if_neg c4]
      by_cases c3 : j < size + 1
      · have c5 : size + 1 - (size - k) ≤ j ∧ j < size + 1 := by omega
        have c6 : k + (j - k - 1) < size := by omega
        have c7 : k + (j - k - 1) = size - (size + 1 - j) := by omega
        rw [if_pos c3, if_pos c5, if_pos c6, c7]
      · have c6 : ¬ k + (j - k - 1) < size := by omega
        rw [if_neg c3, if_neg c6]

/-- The in-place path of `PushBack`: assign slot `size`. -/
theorem push_in_place (buf : ArrayPtr T) (size : Nat) (x : T)
    (hs : size < buf.raw_ptr_.length) :
    ∃ r : ArrayPtr T, buf.assign size (some x) = .ok r ∧
      r.raw_ptr_.length = buf.raw_ptr_.length ∧
      r.raw_ptr_.take (size + 1) = buf.raw_ptr_.take size ++ [some x] := by
  refine ⟨⟨buf.raw_ptr_.set size (some x)⟩, ArrayPtr.assign_lt _ hs, by simp, ?_⟩
  apply List.ext_getElem?
  intro j
  simp only [List.getElem?_take, List.getElem?_set, List.getElem?_append, List.getElem?_cons,
    List.length_take]
  have e1 : min size buf.raw_ptr_.length = size := by omega
  rw [e1]
  by_cases c1 : j < size
  · have c2 : j < size + 1 := by omega
    have c3 : ¬ size = j := by omega
    rw [if_pos c2, if_neg c3, if_pos c1, if_pos c1]
  · rw [if_neg c1]
    by_cases c2 : size = j
    · have c3 : j < size + 1 := by omega
      have c4 : j - size = 0 := by omega
      rw [if_pos c3, if_pos c2, if_pos hs, if_pos c4]
    · have c3 : ¬ j < size + 1 := by omega
      have c4 : ¬ j - size = 0 := by omega
      rw [if_neg c3, if_neg c4]
      simp

/-- The reallocating path of `PushBack`: copy `[0, size)` and assign slot `size` of
the new buffer. -/
theorem push_realloc (buf : ArrayPtr T) (size cap : Nat) (x : T)
    (hs : size ≤ buf.raw_ptr_.length) (hc : size < cap) :
    ∃ h r : ArrayPtr T, std_copy buf 0 (ArrayPtr.new cap) 0 size = .ok h ∧
      h.assign size (some x) = .ok r ∧
      r.raw_ptr_.length = cap ∧
      r.raw_ptr_.take (size + 1) = buf.raw_ptr_.take size ++ [some x] := by
  have hn : (ArrayPtr.new cap : ArrayPtr T).raw_ptr_.length = cap := by simp [ArrayPtr.new]
  obtain ⟨h, hh, hlen, hget⟩ := std_copy_spec buf size 0 (ArrayPtr.new cap) 0 (by omega)
    (by rw [hn]; omega)
  obtain ⟨r, hr, hlen1, htake⟩ := push_in_place h size x (by omega)
  refine ⟨h, r, hh, hr, by omega, ?_⟩
  rw [htake]
  congr 1
  apply List.ext_getElem?
  intro j
  simp only [List.getElem?_take, hget]
  by_cases c1 : j < size
  · have c2 : 0 ≤ j ∧ j < 0 + size := by omega
    have c3 : 0 + (j - 0) = j := by omega
    rw [if_pos c1, if_pos c2, c3, if_pos c1]
  · rw [if_neg c1, if_neg c1]

/-- The relocation of `Reserve`: copy `[0, size)` into a new buffer. -/
theorem reserve_realloc (buf : ArrayPtr T) (size cap : Nat)
    (hs : size ≤ buf.raw_ptr_.length) (hc : size ≤ cap) :
    ∃ r : ArrayPtr T, std_copy buf 0 (ArrayPtr.new cap) 0 size = .ok r ∧
      r.raw_ptr_.length = cap ∧
      r.raw_ptr_.take size = buf.raw_ptr_.take size ∧
      r.raw_ptr_ = buf.raw_ptr_.take size ++ List.replicate (cap - size) none := by
  have hn : (ArrayPtr.new cap : ArrayPtr T).raw_ptr_.length = cap := by simp [ArrayPtr.new]
  obtain ⟨r, hr, hlen, hget⟩ := std_copy_spec buf size 0 (ArrayPtr.new cap) 0 (by omega)
    (by rw [hn]; omega)
  have hall : r.raw_ptr_ = buf.raw_ptr_.take size ++ List.replicate (cap - size) none := by
    apply List.ext_getElem?
    intro j
    simp only [List.getElem?_take, List.getElem?_append, List.getElem?_replicate,
      List.length_take, hget, ArrayPtr.new]
    have e1 : min size buf.raw_ptr_.length = size := by omega
    rw [e1]
    by_cases c1 : j < size
    · have c2 : 0 ≤ j ∧ j < 0 + size := by omega
      have c3 : 0 + (j - 0) = j := by omega
      rw [if_pos c2, if_pos c1, if_pos c1, c3]
    · have c2 : ¬ (0 ≤ j ∧ j < 0 + size) := by omega
      rw [if_neg c2, if_neg c1]
      by_cases c3 : j < cap
      · have c4 : j - size < cap - size := by omega
        rw [if_pos c3, if_pos c4]
      · have c4 : ¬ j - size < cap - size := by omega
        rw [if_neg c3, if_neg c4]
  refine ⟨r, hr, by omega, ?_, hall⟩
  rw [hall, List.take_append_of_le_length (by simp; omega)]
  simp

/-- The shift of `Erase`: move `[k + 1, size)` one place to the left. -/
theorem erase_shift (buf : ArrayPtr T) (size k : Nat)
    (hk : k < size) (hs : size ≤ buf.raw_ptr_.length) :
    ∃ r : ArrayPtr T, forward_within true buf (k + 1) k (size - (k + 1)) = .ok r ∧
      r.raw_ptr_.length = buf.raw_ptr_.length ∧
      r.raw_ptr_.take (size - 1) = (buf.raw_ptr_.take size).eraseIdx k := by
  obtain ⟨r, hr, hlen, hget⟩ := forward_within_spec true (size - (k + 1)) buf k (by omega)
  refine ⟨r, hr, hlen, ?_⟩
  apply List.ext_getElem?
  intro j
  simp only [List.getElem?_take, List.getElem?_eraseIdx, hget]
  by_cases c1 : j < size - 1
  · rw [if_pos c1]
    by_cases c2 : j < k
    · have c3 : ¬ (k ≤ j ∧ j < k + (size - (k + 1))) := by omega
      have c4 : ¬ (j = k + (size - (k + 1)) ∧ True ∧ 0 < size - (k + 1)) := by omega
      have c5 : j < size := by omega
      rw [if_neg c3, if_neg c4, if_pos c2, if_pos c5]
    · have c3 : k ≤ j ∧ j < k + (size - (k + 1)) := by omega
      have c5 : j + 1 < size := by omega
      rw [if_pos c3, if_neg c2, if_pos c5]
  · rw [if_neg c1]
    by_cases c2 : j < k
    · omega
    · have c5 : ¬ j + 1 < size := by omega
      rw [if_neg c2, if_neg c5]

end buffers

/-! ## The member functions -/

namespace SimpleVector

variable {T : Type}

theorem PushBackMove_eq (v : SimpleVector T) (item : T) :
    PushBackMove v item = PushBack v item := rfl

/-- What `PushBack` does on a vector whose buffer holds the live slots and, when no
reallocation is due, the slot after them. -/
theorem PushBack_spec (v : SimpleVector T) (item : T)
    (hcap : v.size_ ≤ v.capacity_) (hlive : v.size_ ≤ v.simple_vector_.slots)
    (hslot : v.size_ < v.capacity_ → v.size_ < v.simple_vector_.slots) :
    ∃ w : SimpleVector T, PushBack v item = .ok w ∧
      w.live = v.live ++ [some item] ∧ w.size_ = v.size_ + 1 ∧
      w.capacity_ = (if v.size_ < v.capacity_ then v.capacity_ else max 1 (2 * v.capacity_)) ∧
      w.simple_vector_.slots
        = (if v.size_ < v.capacity_ then v.simple_vector_.slots else max 1 (2 * v.capacity_)) := by
  unfold ArrayPtr.slots at *
  by_cases h : v.size_ < v.capacity_
  · obtain ⟨r, hr, hlen, htake⟩ := push_in_place v.simple_vector_ v.size_ item (hslot h)
    refine ⟨⟨r, v.size_ + 1, v.capacity_⟩, ?_, ?_, rfl, ?_, ?_⟩
    · simp [PushBack, h, hr]
    · simpa [live] using htake
    · simp [h]
    · simp [h, hlen]
  · obtain ⟨hh, r, hhh, hr, hlen, htake⟩ := push_realloc v.simple_vector_ v.size_
      (max 1 (2 * v.capacity_)) item hlive (by omega)
    refine ⟨⟨r, v.size_ + 1, max 1 (2 * v.capacity_)⟩, ?_, ?_, rfl, ?_, ?_⟩
    · simp [PushBack, h, hhh, hr, ArrayPtr.swap]
    · simpa [live] using htake
    · simp [h]
    · simp [h, hlen]

/-- A returning `PushBack` that did not reallocate wrote a slot of the buffer. -/
theorem PushBack_eq_ok {v w : SimpleVector T} {item : T} (h : PushBack v item = .ok w)
    (hlt : v.size_ < v.capacity_) : v.size_ < v.simple_vector_.slots := by
  unfold PushBack at h
  rw [if_pos hlt] at h
  split at h
  · cases h
  · rename_i buf hb
    exact (ArrayPtr.assign_eq_ok hb).1

/-- What both overloads of `Insert` do on a vector whose buffer holds the live slots
and, when no reallocation is due, the slot after them. -/
theorem Insert_spec (mv : Bool) (v : SimpleVector T) (k : Nat) (value : T)
    (hk : k ≤ v.size_) (hcap : v.size_ ≤ v.capacity_)
    (hlive : v.size_ ≤ v.simple_vector_.slots)
    (hslot : v.size_ < v.capacity_ → v.size_ < v.simple_vector_.slots) :
    ∃ w : SimpleVector T,
      (if mv then InsertMove v k value else Insert v k value) = .ok (w, k) ∧
      w.live = v.live.take k ++ some value :: v.live.drop k ∧ w.size_ = v.size_ + 1 ∧
      w.capacity_ = (if v.size_ < v.capacity_ then v.capacity_ else max 1 (2 * v.capacity_)) ∧
      w.simple_vector_.slots
        = (if v.size_ < v.capacity_ then v.simple_vector_.slots else max 1 (2 * v.capacity_)) := by
  unfold ArrayPtr.slots at *
  by_cases h : v.size_ < v.capacity_
  · obtain ⟨b, r, hb, hr, hlen, htake⟩ :=
      insert_in_place mv v.simple_vector_ v.size_ k value hk (hslot h)
    refine ⟨⟨r, v.size_ + 1, v.capacity_⟩, ?_, ?_, rfl, ?_, ?_⟩
    · cases mv
      · simp [Insert, cbegin, cend, hk, h, hb, hr]
      · simp [InsertMove, cbegin, cend, begin_, end_, hk, h, hb, hr]
    · simpa [live] using htake
    · simp [h]
    · simp [h, hlen]
  · obtain ⟨hh, h1, r, hhh, hh1, hr, hlen, htake⟩ := insert_realloc v.simple_vector_ v.size_ k
      (max 1 (2 * v.capacity_)) value hk hlive (by omega)
    refine ⟨⟨r, v.size_ + 1, max 1 (2 * v.capacity_)⟩, ?_, ?_, rfl, ?_, ?_⟩
    · cases mv
      · simp [Insert, cbegin, cend, hk, h, hhh, hh1, hr, ArrayPtr.swap]
      · simp [InsertMove, cbegin, cend, begin_, end_, hk, h, std_move, std_move_backward,
          hhh, hh1, hr, ArrayPtr.swap]
    · simpa [live] using htake
    · simp [h]
    · simp [h, hlen]

/-- A returning `Insert` (either overload) that did not reallocate found slot
`size_` inside the buffer. -/
theorem Insert_eq_ok (mv : Bool) {v w : SimpleVector T} {k p : Nat} {value : T}
    (h : (if mv then InsertMove v k value else Insert v k value) = .ok (w, p))
    (hlt : v.size_ < v.capacity_) : k ≤ v.size_ ∧ v.size_ < v.simple_vector_.slots := by
  unfold ArrayPtr.slots
  have key : ∀ b r : ArrayPtr T,
      backward_within mv v.simple_vector_ v.size_ (v.size_ + 1) (v.size_ - k) = .ok b →
      b.assign k (some value) = .ok r → k ≤ v.size_ →
      v.size_ < v.simple_vector_.raw_ptr_.length := by
    intro b r hb hr hk
    have h1 := backward_within_eq_ok mv _ _ _ _ _ hb
    have h2 := (ArrayPtr.assign_eq_ok hr).1
    by_cases hks : k = v.size_
    · omega
    · have := h1.2 (by omega)
      omega
  cases mv
  · simp only [Bool.false_eq_true, if_false] at h
    unfold Insert at h
    simp only [cbegin, cend, Nat.sub_zero, ge_iff_le, Nat.zero_le, true_and] at h
    split at h
    · rename_i hk
      try rw [if_pos hlt] at h
      split at h
      · cases h
      · rename_i b hb
        split at h
        · cases h
        · rename_i r hr
          exact ⟨hk, key b r hb hr hk⟩
    · cases h
  · simp only [if_true] at h
    unfold InsertMove at h
    simp only [cbegin, cend, begin_, end_, Nat.sub_zero, Nat.zero_add, ge_iff_le, Nat.zero_le,
      true_and] at h
    split at h
    · rename_i hk
      try rw [if_pos hlt] at h
      split at h
      · cases h
      · rename_i b hb
        split at h
        · cases h
        · rename_i r hr
          exact ⟨hk, key b r hb hr hk⟩
    · cases h

/-- A returning `Insert` (either overload) was called with a position in
`[cbegin(), cend()]`. -/
theorem Insert_eq_ok_pos (mv : Bool) {v w : SimpleVector T} {k p : Nat} {value : T}
    (h : (if mv then InsertMove v k value else Insert v k value) = .ok (w, p)) :
    k ≤ v.size_ := by
  cases mv
  · simp only [Bool.false_eq_true, if_false] at h
    unfold Insert at h
    simp only [cbegin, cend, ge_iff_le, Nat.zero_le, true_and] at h
    split at h
    · assumption
    · cases h
  · simp only [if_true] at h
    unfold InsertMove at h
    simp only [cbegin, cend, ge_iff_le, Nat.zero_le, true_and] at h
    split at h
    · assumption
    · cases h

/-- What `Erase` does at a live position of a vector whose buffer holds the live
slots. -/
theorem Erase_spec (v : SimpleVector T) (k : Nat)
    (hk : k < v.size_) (hlive : v.size_ ≤ v.simple_vector_.slots) :
    ∃ w : SimpleVector T, Erase v k = .ok (w, k) ∧
      w.live = v.live.eraseIdx k ∧ w.size_ = v.size_ - 1 ∧ w.capacity_ = v.capacity_ ∧
      w.simple_vector_.slots = v.simple_vector_.slots := by
  unfold ArrayPtr.slots at *
  obtain ⟨r, hr, hlen, htake⟩ := erase_shift v.simple_vector_ v.size_ k hk hlive
  refine ⟨⟨r, v.size_ - 1, v.capacity_⟩, ?_, ?_, rfl, rfl, hlen⟩
  · simp [Erase, cbegin, cend, begin_, end_, hk, hr]
  · simpa [live] using htake

/-- A returning `Erase` was called with a position in `[cbegin(), cend())`. -/
theorem Erase_eq_ok {v w : SimpleVector T} {k p : Nat} (h : Erase v k = .ok (w, p)) :
    k < v.size_ := by
  unfold Erase at h
  simp only [cbegin, cend, ge_iff_le, Nat.zero_le, true_and] at h
  split at h
  · assumption
  · cases h

/-- What `Reserve` does on a vector whose buffer holds the live slots. -/
theorem Reserve_spec (v : SimpleVector T) (c : Nat)
    (hcap : v.size_ ≤ v.capacity_) (hlive : v.size_ ≤ v.simple_vector_.slots) :
    (c ≤ v.capacity_ → Reserve v c = .ok v) ∧
    (v.capacity_ < c → ∃ w : SimpleVector T, Reserve v c = .ok w ∧
      w.live = v.live ∧ w.size_ = v.size_ ∧ w.capacity_ = c ∧
      w.simple_vector_.raw_ptr_ = v.live ++ List.replicate (c - v.size_) none) := by
  unfold ArrayPtr.slots at *
  constructor
  · intro h
    have : ¬ c > v.capacity_ := by omega
    simp [Reserve, this]
  · intro h
    obtain ⟨r, hr, hlen, htake, hall⟩ := reserve_realloc v.simple_vector_ v.size_ c hlive (by omega)
    refine ⟨⟨r, v.size_, c⟩, ?_, ?_, rfl, rfl, ?_⟩
    · simp [Reserve, h, begin_, end_, hr, ArrayPtr.swap]
    · simpa [live] using htake
    · simpa [live] using hall

/-- What the copy constructor builds from a vector whose buffer holds the live
slots. -/
theorem copy_spec (other : SimpleVector T) (hlive : other.size_ ≤ other.simple_vector_.slots) :
    copy other = .ok ⟨⟨other.live⟩, other.size_, other.capacity_⟩ := by
  unfold ArrayPtr.slots at *
  obtain ⟨r, hr, hlen, htake, hall⟩ :=
    reserve_realloc other.simple_vector_ other.size_ other.size_ hlive (by omega)
  have : r = ⟨other.live⟩ := by
    cases r
    simp only [live, ArrayPtr.mk.injEq]
    simpa using hall
  subst this
  simp [copy, cbegin, cend, hr, ArrayPtr.swap, GetSize, GetCapacity]

/-- What the filling constructor builds. -/
theorem with_size_fill_spec (size : Nat) (value : T) :
    with_size_fill size value = .ok ⟨⟨List.replicate size (some value)⟩, size, size⟩ := by
  have hn : (ArrayPtr.new size : ArrayPtr T).raw_ptr_.length = size := by simp [ArrayPtr.new]
  obtain ⟨r, hr, hlen, hget⟩ := std_fill_spec value size (ArrayPtr.new size) 0
    (by rw [hn]; omega)
  have : r = ⟨List.replicate size (some value)⟩ := by
    cases r
    simp only [ArrayPtr.mk.injEq]
    apply List.ext_getElem?
    intro j
    simp only [] at hget
    rw [hget j]
    simp only [ArrayPtr.new, List.getElem?_replicate]
    by_cases c1 : j < size
    · have c2 : 0 ≤ j ∧ j < 0 + size := by omega
      rw [if_pos c2, if_pos c1]
    · have c2 : ¬ (0 ≤ j ∧ j < 0 + size) := by omega
      rw [if_neg c2, if_neg c1, if_neg c1]
  subst this
  simp [with_size_fill, begin_, end_, hr]

/-- What the initializer-list constructor builds. -/
theorem from_sequence_spec (init : List T) :
    from_sequence init = .ok ⟨⟨init.map some⟩, init.length, init.length⟩ := by
  obtain ⟨r, hr, hlen, htake, hall⟩ :=
    reserve_realloc (⟨init.map some⟩ : ArrayPtr T) init.length init.length (by simp) (by omega)
  have e : List.take init.length (List.map some init) = List.map some init :=
    List.take_of_length_le (by simp)
  have : r = ⟨init.map some⟩ := by
    cases r
    simp only [ArrayPtr.mk.injEq]
    simpa [e] using hall
  subst this
  simp [from_sequence, begin_, std_move, hr]

/-- What the reserving constructor builds. -/
theorem from_reservation_spec (c : Nat) :
    (from_reservation c : Except Fault (SimpleVector T))
      = .ok ⟨⟨List.replicate c none⟩, 0, c⟩ := by
  by_cases h : c = 0
  · subst h
    simp [from_reservation, Reserve, empty, ArrayPtr.new]
  · have hc : c > 0 := by omega
    simp [from_reservation, Reserve, empty, hc, begin_, end_, std_copy, ArrayPtr.swap,
      ArrayPtr.new]

/-- The first branch of `Resize`: `new_size` at most `size_`. -/
theorem Resize_shrink [Inhabited T] (v : SimpleVector T) (n : Nat) (h : n ≤ v.size_) :
    Resize v n = .ok ⟨v.simple_vector_, n, v.capacity_⟩ := by
  simp [Resize, h]

/-- The second branch of `Resize`: `size_ < new_size < capacity_`, on a buffer that
has slot `new_size`.  Slots `size_ + 1, ..., new_size` become `Type{}`; slot `size_`
keeps what it held. -/
theorem Resize_in_capacity [Inhabited T] (v : SimpleVector T) (n : Nat)
    (h1 : v.size_ < n) (h2 : n < v.capacity_) (h3 : n < v.simple_vector_.slots) :
    ∃ w : SimpleVector T, Resize v n = .ok w ∧ w.size_ = n ∧ w.capacity_ = v.capacity_ ∧
      w.simple_vector_.slots = v.simple_vector_.slots ∧
      (∀ j, w.simple_vector_.raw_ptr_[j]? =
        if v.size_ < j ∧ j ≤ n then some (some default) else v.simple_vector_.raw_ptr_[j]?) ∧
      w.live = v.simple_vector_.raw_ptr_.take (v.size_ + 1)
        ++ List.replicate (n - (v.size_ + 1)) (some default) := by
  unfold ArrayPtr.slots at *
  obtain ⟨r, hr, hlen, hget⟩ := Resize_loop_spec v.size_ n v.simple_vector_ (by omega)
    (fun _ => h3)
  have hc : ¬ v.size_ ≥ n := by omega
  refine ⟨⟨r, n, v.capacity_⟩, ?_, rfl, rfl, hlen, hget, ?_⟩
  · simp [Resize, hc, h1, h2, begin_, end_, hr]
  · apply List.ext_getElem?
    intro j
    simp only [live, List.getElem?_take, List.getElem?_append, List.getElem?_replicate,
      List.length_take, hget]
    have e1 : min (v.size_ + 1) v.simple_vector_.raw_ptr_.length = v.size_ + 1 := by omega
    rw [e1]
    by_cases c1 : j < v.size_ + 1
    · have c2 : j < n := by omega
      have c3 : ¬ (v.size_ < j ∧ j ≤ n) := by omega
      rw [if_pos c2, if_neg c3, if_pos c1, if_pos c1]
    · rw [if_neg c1]
      by_cases c2 : j < n
      · have c3 : v.size_ < j ∧ j ≤ n := by omega
        have c4 : j - (v.size_ + 1) < n - (v.size_ + 1) := by omega
        rw [if_pos c2, if_pos c3, if_pos c4]
      · have c4 : ¬ j - (v.size_ + 1) < n - (v.size_ + 1) := by omega
        rw [if_neg c2, if_neg c4]

/-- The third branch of `Resize`: `size_ < new_size` and `capacity_ ≤ new_size`.  The
new buffer has `new_size` slots, the recorded capacity is `new_size * 2`. -/
theorem Resize_grow [Inhabited T] (v : SimpleVector T) (n : Nat)
    (h1 : v.size_ < n) (h2 : v.capacity_ ≤ n) (hlive : v.size_ ≤ v.simple_vector_.slots) :
    Resize v n = .ok ⟨⟨v.live ++ List.replicate (n - v.size_) none⟩, n, n * 2⟩ := by
  unfold ArrayPtr.slots at *
  obtain ⟨r, hr, hlen, htake, hall⟩ :=
    reserve_realloc v.simple_vector_ v.size_ n hlive (by omega)
  have : r = ⟨v.live ++ List.replicate (n - v.size_) none⟩ := by
    cases r
    simp only [live, ArrayPtr.mk.injEq]
    simpa using hall
  subst this
  have hc : ¬ v.size_ ≥ n := by omega
  have hc2 : ¬ (v.size_ < n ∧ v.capacity_ > n) := by omega
  simp only [Resize, if_neg hc, if_neg hc2, begin_, end_, std_move, Nat.zero_add, Nat.sub_zero,
    hr, ArrayPtr.swap]

/-- A returning `Resize` that took the second branch found slot `new_size` inside
the buffer. -/
theorem Resize_eq_ok [Inhabited T] {v w : SimpleVector T} {n : Nat} (h : Resize v n = .ok w)
    (h1 : v.size_ < n) (h2 : n < v.capacity_) : n < v.simple_vector_.slots := by
  unfold ArrayPtr.slots
  have hc : ¬ v.size_ ≥ n := by omega
  have hc2 : v.size_ < n ∧ v.capacity_ > n := ⟨h1, h2⟩
  unfold Resize at h
  rw [if_neg hc, if_pos hc2] at h
  split at h
  · cases h
  · rename_i r c hl
    have := (Resize_loop_eq_ok _ _ _ _ _ hl).2
    simp only [begin_, end_, Nat.zero_add] at this
    exact this (by omega)

/-- The representation invariant kept by every member function: the live slots lie
inside the buffer, and the buffer has no more slots than the recorded capacity. -/
theorem reachable_inv [Inhabited T] {v : SimpleVector T} (h : Reachable v) :
    v.size_ ≤ v.simple_vector_.slots ∧ v.simple_vector_.slots ≤ v.capacity_ := by
  induction h with
  | empty => simp [empty, ArrayPtr.slots, ArrayPtr.new]
  | with_size size v h =>
    rw [with_size, with_size_fill_spec] at h
    cases h
    simp [ArrayPtr.slots]
  | with_size_fill size value v h =>
    rw [with_size_fill_spec] at h
    cases h
    simp [ArrayPtr.slots]
  | from_sequence init v h =>
    rw [from_sequence_spec] at h
    cases h
    simp [ArrayPtr.slots]
  | from_reservation c v h =>
    rw [from_reservation_spec] at h
    cases h
    simp [ArrayPtr.slots]
  | copy other v _ h ih =>
    rw [copy_spec other ih.1] at h
    cases h
    have := ih.1
    have := ih.2
    simp only [ArrayPtr.slots, live, List.length_take] at *
    omega
  | move_new other _ ih => exact ih
  | move_old other _ _ => simp [move, ArrayPtr.move_assign, ArrayPtr.slots, ArrayPtr.new]
  | operator_index_assign v index x w _ h ih =>
    unfold operator_index_assign at h
    split at h
    · split at h
      · cases h
      · rename_i buf hb
        obtain ⟨_, rfl⟩ := ArrayPtr.assign_eq_ok hb
        cases h
        simpa [ArrayPtr.slots] using ih
    · cases h
  | Clear v _ ih =>
    have := ih.2
    simp only [Clear, ArrayPtr.slots] at *
    omega
  | Resize v n w _ h ih =>
    by_cases c1 : n ≤ v.size_
    · rw [Resize_shrink v n c1] at h
      cases h
      have := ih.1
      have := ih.2
      simp only [ArrayPtr.slots] at *
      omega
    · by_cases c2 : n < v.capacity_
      · have h3 := Resize_eq_ok h (by omega) c2
        obtain ⟨w0, hw0, hs, hc, hsl, _, _⟩ := Resize_in_capacity v n (by omega) c2 h3
        rw [hw0] at h
        cases h
        have := ih.2
        omega
      · rw [Resize_grow v n (by omega) (by omega) ih.1] at h
        cases h
        have := ih.1
        simp only [ArrayPtr.slots, live, List.length_append, List.length_take,
          List.length_replicate] at *
        omega
  | PushBack v item w _ h ih =>
    have hslot : v.size_ < v.capacity_ → v.size_ < v.simple_vector_.slots :=
      fun hlt => PushBack_eq_ok h hlt
    obtain ⟨w0, hw0, _, hs, hc, hsl⟩ := PushBack_spec v item (by omega) ih.1 hslot
    rw [hw0] at h
    cases h
    have := ih.2
    split_ifs at hc hsl <;> omega
  | PushBackMove v item w _ h ih =>
    rw [PushBackMove_eq] at h
    have hslot : v.size_ < v.capacity_ → v.size_ < v.simple_vector_.slots :=
      fun hlt => PushBack_eq_ok h hlt
    obtain ⟨w0, hw0, _, hs, hc, hsl⟩ := PushBack_spec v item (by omega) ih.1 hslot
    rw [hw0] at h
    cases h
    have := ih.2
    split_ifs at hc hsl <;> omega
  | Insert v k value w p _ h ih =>
    have h' : (if false then InsertMove v k value else Insert v k value) = .ok (w, p) := by
      simpa using h
    have hk := Insert_eq_ok_pos false h'
    have hslot : v.size_ < v.capacity_ → v.size_ < v.simple_vector_.slots :=
      fun hlt => (Insert_eq_ok false h' hlt).2
    obtain ⟨w0, hw0, _, hs, hc, hsl⟩ := Insert_spec false v k value hk (by omega) ih.1 hslot
    rw [hw0] at h'
    cases h'
    have := ih.2
    split_ifs at hc hsl <;> omega
  | InsertMove v k value w p _ h ih =>
    have h' : (if true then InsertMove v k value else Insert v k value) = .ok (w, p) := by
      simpa using h
    have hk := Insert_eq_ok_pos true h'
    have hslot : v.size_ < v.capacity_ → v.size_ < v.simple_vector_.slots :=
      fun hlt => (Insert_eq_ok true h' hlt).2
    obtain ⟨w0, hw0, _, hs, hc, hsl⟩ := Insert_spec true v k value hk (by omega) ih.1 hslot
    rw [hw0] at h'
    cases h'
    have := ih.2
    split_ifs at hc hsl <;> omega
  | PopBack v _ ih =>
    have := ih.1
    have := ih.2
    unfold PopBack
    split
    · simp only [ArrayPtr.slots] at *
      omega
    · exact ih
  | Erase v k w p _ h ih =>
    have hk := Erase_eq_ok h
    obtain ⟨w0, hw0, _, hs, hc, hsl⟩ := Erase_spec v k hk ih.1
    rw [hw0] at h
    cases h
    have := ih.1
    have := ih.2
    omega
  | swap_this v other _ _ _ ih2 => simpa [swap, ArrayPtr.swap] using ih2
  | swap_other v other _ _ ih1 _ => simpa [swap, ArrayPtr.swap] using ih1
  | Reserve v c w _ h ih =>
    by_cases hc : c ≤ v.capacity_
    · rw [(Reserve_spec v c (by omega) ih.1).1 hc] at h
      cases h
      exact ih
    · obtain ⟨w0, hw0, _, hs, hcap, hraw⟩ := (Reserve_spec v c (by omega) ih.1).2 (by omega)
      rw [hw0] at h
      cases h
      have := ih.1
      have := ih.2
      simp only [ArrayPtr.slots, hraw, live, List.length_append, List.length_take,
        List.length_replicate] at *
      omega
  | operator_assign v rhs w _ _ h _ ih2 =>
    unfold operator_assign at h
    rw [copy_spec rhs ih2.1] at h
    cases h
    have := ih2.1
    have := ih2.2
    simp only [swap, ArrayPtr.swap, ArrayPtr.slots, live, List.length_take] at *
    omega

end SimpleVector

namespace SimpleVector

variable {T : Type}

/-- A sequence of pushes that fits into the spare slots of a vector whose buffer has
exactly `capacity_` slots never reallocates. -/
theorem push_all_spec (pushes : List (Bool × T)) :
    ∀ v : SimpleVector T, v.simple_vector_.slots = v.capacity_ →
      v.size_ + pushes.length ≤ v.capacity_ →
      ∃ w : SimpleVector T, push_all v pushes = .ok w ∧
        w.live = v.live ++ pushes.map (fun e => some e.2) ∧
        w.size_ = v.size_ + pushes.length ∧ w.capacity_ = v.capacity_ ∧
        w.simple_vector_.slots = v.capacity_ := by
  induction pushes with
  | nil =>
    intro v hs _
    exact ⟨v, rfl, by simp, rfl, rfl, hs⟩
  | cons e rest ih =>
    intro v hs hfit
    obtain ⟨mv, item⟩ := e
    simp only [List.length_cons] at hfit
    have hlt : v.size_ < v.capacity_ := by omega
    obtain ⟨v1, hv1, hl1, hs1, hc1, hsl1⟩ :=
      PushBack_spec v item (by omega) (by omega) (fun _ => by omega)
    rw [if_pos hlt] at hc1 hsl1
    obtain ⟨w, hw, hl, hsz, hc, hsl⟩ := ih v1 (by omega) (by omega)
    refine ⟨w, ?_, ?_, ?_, by omega, by omega⟩
    · cases mv
      · simp [push_all, hv1, hw]
      · simp [push_all, PushBackMove_eq, hv1, hw]
    · rw [hl, hl1]
      simp
    · simp only [List.length_cons]
      omega

/-- The contract of `PushBack`.  For every vector with `size_ <= capacity_` whose
buffer holds the live slots and, when `size_ < capacity_`, also slot `size_`, and
for every value `x`: both overloads of `PushBack` return, the live sequence becomes `old ++ [x]`,
the size grows by exactly one, the capacity is unchanged when `size_ < capacity_`
and becomes `max(1, 2 * capacity_)` when `size_ = capacity_`; so a push onto a
capacity-0 vector gives capacity 1, and pushing 1, 2, 3 onto the empty vector gives
the capacities 0, 1, 2, 4. -/
theorem PushBack_appends (v : SimpleVector T) (x : T)
    (hcap : v.size_ ≤ v.capacity_) (hlive : v.size_ ≤ v.simple_vector_.slots)
    (hslot : v.size_ < v.capacity_ → v.size_ < v.simple_vector_.slots) :
    (∃ w : SimpleVector T, PushBack v x = .ok w ∧ PushBackMove v x = .ok w ∧
      w.live = v.live ++ [some x] ∧ w.size_ = v.size_ + 1 ∧
      (v.size_ < v.capacity_ → w.capacity_ = v.capacity_) ∧
      (v.size_ = v.capacity_ → w.capacity_ = max 1 (2 * v.capacity_)) ∧
      (v.capacity_ = 0 → w.capacity_ = 1)) ∧
    ((empty : SimpleVector Nat).capacity_ = 0 ∧
      ∃ v1 v2 v3 : SimpleVector Nat,
        PushBack empty 1 = .ok v1 ∧ v1.capacity_ = 1 ∧
        PushBack v1 2 = .ok v2 ∧ v2.capacity_ = 2 ∧
        PushBack v2 3 = .ok v3 ∧ v3.capacity_ = 4 ∧
        v3.size_ = 3 ∧ v3.live = [some 1, some 2, some 3]) := by
  constructor
  · obtain ⟨w, hw, hl, hs, hc, _⟩ := PushBack_spec v x hcap hlive hslot
    refine ⟨w, hw, hw, hl, hs, ?_, ?_, ?_⟩
    · intro h
      rw [hc, if_pos h]
    · intro h
      rw [hc, if_neg (by omega)]
    · intro h
      rw [hc, if_neg (by omega), h]
      rfl
  · exact ⟨rfl, ⟨⟨[some 1]⟩, 1, 1⟩, ⟨⟨[some 1, some 2]⟩, 2, 2⟩,
      ⟨⟨[some 1, some 2, some 3, none]⟩, 3, 4⟩,
      by decide, rfl, by decide, rfl, by decide, rfl, rfl, by decide⟩

/-- The contract of `Insert`.  For every vector with live sequence `s` and `size_ <= capacity_`
whose buffer holds the live slots and, when `size_ < capacity_`, also slot `size_`,
every index `k <= size_` and every value: both overloads of `Insert` return
position `k`, the sequence becomes `s[0..k) ++ [value] ++ s[k..size)` (so the
returned position holds the value), the size grows by one, the capacity is unchanged
when `size_ < capacity_` and `max(1, 2 * capacity_)` otherwise; and `Insert` at
position 0 of the empty vector gives the one-element vector. -/
theorem Insert_inserts (v : SimpleVector T) (k : Nat) (value : T)
    (hk : k ≤ v.size_) (hcap : v.size_ ≤ v.capacity_)
    (hlive : v.size_ ≤ v.simple_vector_.slots)
    (hslot : v.size_ < v.capacity_ → v.size_ < v.simple_vector_.slots) :
    (∀ mv : Bool, ∃ w : SimpleVector T,
      (if mv then InsertMove v k value else Insert v k value) = .ok (w, k) ∧
      w.live = v.live.take k ++ [some value] ++ v.live.drop k ∧
      w.live[k]? = some (some value) ∧
      w.size_ = v.size_ + 1 ∧
      w.capacity_ = (if v.size_ < v.capacity_ then v.capacity_ else max 1 (2 * v.capacity_))) ∧
    Insert (empty : SimpleVector T) 0 value = .ok (⟨⟨[some value]⟩, 1, 1⟩, 0) ∧
    InsertMove (empty : SimpleVector T) 0 value = .ok (⟨⟨[some value]⟩, 1, 1⟩, 0) := by
  refine ⟨?_, ?_, ?_⟩
  · intro mv
    obtain ⟨w, hw, hl, hs, hc, _⟩ := Insert_spec mv v k value hk hcap hlive hslot
    refine ⟨w, hw, by simpa using hl, ?_, hs, hc⟩
    rw [hl]
    have hlen : (v.live.take k).length = k := by
      unfold ArrayPtr.slots at hlive
      simp only [live, List.length_take]
      omega
    rw [List.getElem?_append_right (by omega), hlen]
    simp
  · simp [Insert, empty, cbegin, cend, ArrayPtr.new, std_copy, std_copy_backward,
      ArrayPtr.assign, ArrayPtr.swap]
  · simp [InsertMove, empty, cbegin, cend, begin_, end_, ArrayPtr.new, std_move, std_copy,
      std_move_backward, std_copy_backward, ArrayPtr.assign, ArrayPtr.swap]

/-- Erasing what was just inserted.  For every vector with `size_ <= capacity_` whose
buffer holds the live slots and, when `size_ < capacity_`, also slot `size_`, every
position `k <= size_`
and every value: `Insert` (either overload) returns a position, `Erase` at that
position returns, and afterwards the live sequence and the size are those before
the `Insert`. -/
theorem Erase_undoes_Insert (v : SimpleVector T) (k : Nat) (value : T)
    (hk : k ≤ v.size_) (hcap : v.size_ ≤ v.capacity_)
    (hlive : v.size_ ≤ v.simple_vector_.slots)
    (hslot : v.size_ < v.capacity_ → v.size_ < v.simple_vector_.slots) :
    ∀ mv : Bool, ∃ (w u : SimpleVector T) (p q : Nat),
      (if mv then InsertMove v k value else Insert v k value) = .ok (w, p) ∧
      Erase w p = .ok (u, q) ∧ u.live = v.live ∧ u.size_ = v.size_ := by
  intro mv
  obtain ⟨w, hw, hl, hs, hc, hsl⟩ := Insert_spec mv v k value hk hcap hlive hslot
  have hwl : w.size_ ≤ w.simple_vector_.slots := by
    rw [hsl, hs]
    split_ifs with h
    · exact hslot h
    · omega
  obtain ⟨u, hu, hul, hus, _, _⟩ := Erase_spec w k (by omega) hwl
  refine ⟨w, u, k, k, hw, hu, ?_, by omega⟩
  have hlen : (v.live.take k).length = k := by
    unfold ArrayPtr.slots at hlive
    simp only [live, List.length_take]
    omega
  rw [hul, hl, List.eraseIdx_append_of_length_le (by omega), hlen, Nat.sub_self,
    List.eraseIdx_cons_zero, List.take_append_drop]

end SimpleVector

/-! ## Insert at the end and PushBack -/

namespace SimpleVector

variable {T : Type}

/-- At the position `cend()`, `Insert` does what `PushBack` does, whether that is to
return a vector or to fail: the same assignments are made in the same order. -/
theorem Insert_cend_eq_PushBack (v : SimpleVector T) (value : T) :
    Insert v v.cend value = (PushBack v value).map (fun w => (w, v.size_)) := by
  unfold Insert PushBack
  simp only [cbegin, cend, ge_iff_le, Nat.zero_le, Nat.le_refl, and_self, if_true, Nat.sub_self,
    Nat.sub_zero, backward_within, std_copy_backward]
  split
  · cases h : v.simple_vector_.assign v.size_ (some value) <;> simp [Except.map]
  · cases h : std_copy v.simple_vector_ 0 (ArrayPtr.new (max 1 (2 * v.capacity_))) 0 v.size_ with
    | error e => simp [Except.map]
    | ok helper =>
      simp only [Except.map]
      cases h1 : helper.assign v.size_ (some value) <;> rfl

/-- At the position `end()`, `Insert(pos, Type &&)` does what `PushBack(Type &&)`
does. -/
theorem InsertMove_end_eq_PushBackMove (v : SimpleVector T) (value : T) :
    InsertMove v v.end_ value = (PushBackMove v value).map (fun w => (w, v.size_)) := by
  unfold InsertMove PushBackMove
  simp only [cbegin, cend, begin_, end_, Nat.zero_add, ge_iff_le, Nat.zero_le, Nat.le_refl,
    and_self, if_true, Nat.sub_self, Nat.sub_zero, backward_within, std_move_backward,
    std_copy_backward, std_move]
  split
  · cases h : v.simple_vector_.assign v.size_ (some value) <;> simp [Except.map]
  · cases h : std_copy v.simple_vector_ 0 (ArrayPtr.new (max 1 (2 * v.capacity_))) 0 v.size_ with
    | error e => simp [Except.map]
    | ok helper =>
      simp only [Except.map]
      cases h1 : helper.assign v.size_ (some value) <;> rfl

end SimpleVector

/-! ## Capacity along calls -/

namespace SimpleVector

variable {T : Type}

theorem Resize_capacity_le [Inhabited T] {v w : SimpleVector T} {n : Nat}
    (h : Resize v n = .ok w) : v.capacity_ ≤ w.capacity_ := by
  unfold Resize at h
  split at h
  · cases h
    exact Nat.le_refl _
  · split at h
    · split at h
      · cases h
      · cases h
        exact Nat.le_refl _
    · rename_i h1 h2
      split at h
      · cases h
      · cases h
        simp only
        omega

theorem PushBack_capacity_le {v w : SimpleVector T} {item : T}
    (h : PushBack v item = .ok w) : v.capacity_ ≤ w.capacity_ := by
  unfold PushBack at h
  split at h
  · split at h
    · cases h
    · cases h
      exact Nat.le_refl _
  · simp only at h
    split at h
    · cases h
    · split at h
      · cases h
      · cases h
        simp only
        omega

theorem Insert_capacity_le (mv : Bool) {v w : SimpleVector T} {k p : Nat} {value : T}
    (h : (if mv then InsertMove v k value else Insert v k value) = .ok (w, p)) :
    v.capacity_ ≤ w.capacity_ := by
  cases mv
  · simp only [Bool.false_eq_true, if_false] at h
    unfold Insert at h
    split at h
    · simp only at h
      split at h
      · split at h
        · cases h
        · split at h
          · cases h
          · cases h
            exact Nat.le_refl _
      · split at h
        · cases h
        · split at h
          · cases h
          · split at h
            · cases h
            · cases h
              simp only
              omega
    · cases h
  · simp only [if_true] at h
    unfold InsertMove at h
    split at h
    · simp only at h
      split at h
      · split at h
        · cases h
        · split at h
          · cases h
          · cases h
            exact Nat.le_refl _
      · split at h
        · cases h
        · split at h
          · cases h
          · split at h
            · cases h
            · cases h
              simp only
              omega
    · cases h

theorem Erase_capacity_eq {v w : SimpleVector T} {k p : Nat}
    (h : Erase v k = .ok (w, p)) : w.capacity_ = v.capacity_ := by
  unfold Erase at h
  split at h
  · simp only at h
    split at h
    · cases h
    · cases h
      rfl
  · cases h

theorem Reserve_capacity_le {v w : SimpleVector T} {c : Nat}
    (h : Reserve v c = .ok w) : v.capacity_ ≤ w.capacity_ := by
  unfold Reserve at h
  split at h
  · split at h
    · cases h
    · cases h
      simp only
      omega
  · cases h
    exact Nat.le_refl _

theorem map_fst_eq_ok {α β : Type} {r : Except Fault (α × β)} {a : α}
    (h : r.map Prod.fst = .ok a) : ∃ b, r = .ok (a, b) := by
  cases r with
  | error e => cases h
  | ok x =>
    obtain ⟨x1, x2⟩ := x
    simp only [Except.map] at h
    cases h
    exact ⟨x2, rfl⟩

/-- A call that returns does not lower the capacity. -/
theorem call_capacity_le [Inhabited T] {v w : SimpleVector T} {op : Op T}
    (h : call v op = .ok w) : v.capacity_ ≤ w.capacity_ := by
  cases op with
  | Clear =>
    cases h
    exact Nat.le_refl _
  | Resize n => exact Resize_capacity_le h
  | PushBack item => exact PushBack_capacity_le h
  | PushBackMove item => exact PushBack_capacity_le (show PushBack v item = .ok w from h)
  | Insert pos value =>
    obtain ⟨p, hp⟩ := map_fst_eq_ok h
    exact Insert_capacity_le false (by simpa using hp)
  | InsertMove pos value =>
    obtain ⟨p, hp⟩ := map_fst_eq_ok h
    exact Insert_capacity_le true (by simpa using hp)
  | PopBack =>
    simp only [call, PopBack] at h
    split at h <;> cases h <;> exact Nat.le_refl _
  | Erase pos =>
    obtain ⟨p, hp⟩ := map_fst_eq_ok h
    rw [Erase_capacity_eq hp]
  | Reserve c => exact Reserve_capacity_le h

/-- A sequence of calls that returns does not lower the capacity. -/
theorem call_all_capacity_le [Inhabited T] (ops : List (Op T)) :
    ∀ {v w : SimpleVector T}, call_all v ops = .ok w → v.capacity_ ≤ w.capacity_ := by
  induction ops with
  | nil =>
    intro v w h
    cases h
    exact Nat.le_refl _
  | cons op rest ih =>
    intro v w h
    unfold call_all at h
    split at h
    · cases h
    · rename_i v1 h1
      exact Nat.le_trans (call_capacity_le h1) (ih h)

/-- On a vector with `size_ <= capacity_` whose buffer has at least `capacity_` slots,
every call whose precondition holds returns. -/
theorem call_returns [Inhabited T] (v : SimpleVector T) (op : Op T)
    (hcap : v.size_ ≤ v.capacity_) (hbuf : v.capacity_ ≤ v.simple_vector_.slots)
    (hpre : op.pre v) : ∃ w : SimpleVector T, call v op = .ok w := by
  cases op with
  | Clear => exact ⟨_, rfl⟩
  | Resize n =>
    by_cases c1 : n ≤ v.size_
    · exact ⟨_, Resize_shrink v n c1⟩
    · by_cases c2 : n < v.capacity_
      · obtain ⟨w, hw, _⟩ := Resize_in_capacity v n (by omega) c2 (by omega)
        exact ⟨w, hw⟩
      · exact ⟨_, Resize_grow v n (by omega) (by omega) (by omega)⟩
  | PushBack item =>
    obtain ⟨w, hw, _⟩ := PushBack_spec v item hcap (by omega) (fun _ => by omega)
    exact ⟨w, hw⟩
  | PushBackMove item =>
    obtain ⟨w, hw, _⟩ := PushBack_spec v item hcap (by omega) (fun _ => by omega)
    exact ⟨w, hw⟩
  | Insert pos value =>
    simp only [Op.pre, cbegin, cend] at hpre
    obtain ⟨w, hw, _⟩ := Insert_spec false v pos value hpre.2 hcap (by omega) (fun _ => by omega)
    simp only [Bool.false_eq_true, if_false] at hw
    exact ⟨w, by simp [call, hw, Except.map]⟩
  | InsertMove pos value =>
    simp only [Op.pre, cbegin, cend] at hpre
    obtain ⟨w, hw, _⟩ := Insert_spec true v pos value hpre.2 hcap (by omega) (fun _ => by omega)
    simp only [if_true] at hw
    exact ⟨w, by simp [call, hw, Except.map]⟩
  | PopBack => exact ⟨_, rfl⟩
  | Erase pos =>
    simp only [Op.pre, cbegin, cend] at hpre
    obtain ⟨w, hw, _⟩ := Erase_spec v pos hpre.2 (by omega)
    exact ⟨w, by simp [call, hw, Except.map]⟩
  | Reserve c =>
    obtain ⟨h1, h2⟩ := Reserve_spec v c hcap (by omega)
    by_cases hc : c ≤ v.capacity_
    · exact ⟨v, h1 hc⟩
    · obtain ⟨w, hw, _⟩ := h2 (by omega)
      exact ⟨w, hw⟩

end SimpleVector

/-! ## Comparison -/

section comparison

variable {T : Type}

/-- In a vector that holds `xs`, slot `i` reads as `xs[i]`. -/
theorem SimpleVector.read_of_holds {v : SimpleVector T} {xs : List T}
    (h : v.holds xs) (i : Nat) (hi : i < xs.length) :
    v.simple_vector_.read i = .ok (xs.get ⟨i, hi⟩) := by
  obtain ⟨hl, hlen⟩ := h
  have h1 : (v.simple_vector_.raw_ptr_.take v.size_)[i]? = (xs.map some)[i]? := by
    unfold SimpleVector.live at hl
    rw [hl]
  rw [List.getElem?_take, if_pos (by omega), List.getElem?_map,
    List.getElem?_eq_getElem hi] at h1
  simp only [Option.map_some'] at h1
  simp [ArrayPtr.read, ArrayPtr.index, h1]

/-- Pairwise equal sequences have the same length. -/
theorem spec_pairwise_equal_length (eq : T → T → Bool) :
    ∀ xs ys : List T, SimpleVector.spec_pairwise_equal eq xs ys = true → xs.length = ys.length
  | [], [], _ => rfl
  | [], _ :: _, h => by simp [SimpleVector.spec_pairwise_equal] at h
  | _ :: _, [], h => by simp [SimpleVector.spec_pairwise_equal] at h
  | x :: xs, y :: ys, h => by
    simp only [SimpleVector.spec_pairwise_equal, Bool.and_eq_true] at h
    simp [spec_pairwise_equal_length eq xs ys h.2]

/-- Pairwise equality, position by position. -/
theorem spec_pairwise_equal_iff (eq : T → T → Bool) :
    ∀ xs ys : List T, SimpleVector.spec_pairwise_equal eq xs ys = true ↔
      xs.length = ys.length ∧
        ∀ i (h1 : i < xs.length) (h2 : i < ys.length), eq (xs.get ⟨i, h1⟩) (ys.get ⟨i, h2⟩) = true
  | [], [] => by simp [SimpleVector.spec_pairwise_equal]
  | [], _ :: _ => by simp [SimpleVector.spec_pairwise_equal]
  | _ :: _, [] => by simp [SimpleVector.spec_pairwise_equal]
  | x :: xs, y :: ys => by
    simp only [SimpleVector.spec_pairwise_equal, Bool.and_eq_true, List.length_cons,
      Nat.add_right_cancel_iff]
    rw [spec_pairwise_equal_iff eq xs ys]
    constructor
    · rintro ⟨h0, hlen, hall⟩
      refine ⟨hlen, ?_⟩
      intro i h1 h2
      cases i with
      | zero => exact h0
      | succ i => exact hall i (by simpa using h1) (by simpa using h2)
    · rintro ⟨hlen, hall⟩
      refine ⟨hall 0 (by simp) (by simp), hlen, ?_⟩
      intro i h1 h2
      exact hall (i + 1) (by simpa using h1) (by simpa using h2)

/-- What `std_equal` returns on two ranges of slots that read as `xs` and `ys`. -/
theorem std_equal_spec (eq : T → T → Bool) (a b : ArrayPtr T) :
    ∀ (xs ys : List T) (k1 k2 : Nat), xs.length = ys.length →
      (∀ i (h : i < xs.length), a.read (k1 + i) = .ok (xs.get ⟨i, h⟩)) →
      (∀ i (h : i < ys.length), b.read (k2 + i) = .ok (ys.get ⟨i, h⟩)) →
      std_equal eq a b k1 k2 xs.length = .ok (SimpleVector.spec_pairwise_equal eq xs ys)
  | [], [], _, _, _, _, _ => rfl
  | [], _ :: _, _, _, h, _, _ => by simp at h
  | _ :: _, [], _, _, h, _, _ => by simp at h
  | x :: xs, y :: ys, k1, k2, hlen, h1, h2 => by
    have hx := h1 0 (by simp)
    have hy := h2 0 (by simp)
    simp only [Nat.add_zero, List.get_eq_getElem, List.getElem_cons_zero] at hx hy
    have ih := std_equal_spec eq a b xs ys (k1 + 1) (k2 + 1) (by simpa using hlen)
      (fun i h => by
        have := h1 (i + 1) (by simpa using h)
        simpa [Nat.add_assoc, Nat.add_comm 1 i] using this)
      (fun i h => by
        have := h2 (i + 1) (by simpa using h)
        simpa [Nat.add_assoc, Nat.add_comm 1 i] using this)
    simp only [List.length_cons, std_equal, hx, hy, SimpleVector.spec_pairwise_equal]
    by_cases he : eq x y = true
    · simp [he, ih]
    · simp [he]

/-- With a strict order that respects `eq`, equal elements are not ordered. -/
theorem SimpleVector.ElemOrder.not_lt_of_eq {eq lt : T → T → Bool}
    (ho : SimpleVector.ElemOrder eq lt) {x y : T} (h : eq x y = true) :
    lt x y = false ∧ lt y x = false := by
  constructor
  · rw [ho.lt_congr x y y y h (ho.eq_refl y)]
    exact ho.lt_irrefl y
  · rw [ho.lt_congr y y x y (ho.eq_refl y) h]
    exact ho.lt_irrefl y

/-- A strict order is asymmetric. -/
theorem SimpleVector.ElemOrder.lt_asymm {eq lt : T → T → Bool}
    (ho : SimpleVector.ElemOrder eq lt) {x y : T} (h : lt x y = true) : lt y x = false := by
  by_contra hc
  have h1 : lt y x = true := by simpa using hc
  have h2 := ho.lt_trans x y x h h1
  rw [ho.lt_irrefl x] at h2
  cases h2

/-- What `std_lexicographical_compare` returns on two ranges of slots that read as
`xs` and `ys`: the strict lexicographic order of the spec. -/
theorem std_lexicographical_compare_spec {eq lt : T → T → Bool}
    (ho : SimpleVector.ElemOrder eq lt) (a b : ArrayPtr T) :
    ∀ (xs ys : List T) (k1 k2 : Nat),
      (∀ i (h : i < xs.length), a.read (k1 + i) = .ok (xs.get ⟨i, h⟩)) →
      (∀ i (h : i < ys.length), b.read (k2 + i) = .ok (ys.get ⟨i, h⟩)) →
      std_lexicographical_compare lt a b k1 xs.length k2 ys.length
        = .ok (SimpleVector.spec_lexicographic_lt eq lt xs ys)
  | [], [], _, _, _, _ => rfl
  | [], _ :: _, _, _, _, _ => rfl
  | _ :: _, [], _, _, _, _ => rfl
  | x :: xs, y :: ys, k1, k2, h1, h2 => by
    have hx := h1 0 (by simp)
    have hy := h2 0 (by simp)
    simp only [Nat.add_zero, List.get_eq_getElem, List.getElem_cons_zero] at hx hy
    have ih := std_lexicographical_compare_spec ho a b xs ys (k1 + 1) (k2 + 1)
      (fun i h => by
        have := h1 (i + 1) (by simpa using h)
        simpa [Nat.add_assoc, Nat.add_comm 1 i] using this)
      (fun i h => by
        have := h2 (i + 1) (by simpa using h)
        simpa [Nat.add_assoc, Nat.add_comm 1 i] using this)
    simp only [List.length_cons, std_lexicographical_compare, hx, hy,
      SimpleVector.spec_lexicographic_lt]
    by_cases hlt : lt x y = true
    · simp [hlt]
    · by_cases hgt : lt y x = true
      · have hne : eq x y = false := by
          by_contra hc
          have he : eq x y = true := by simpa using hc
          rw [(ho.not_lt_of_eq he).2] at hgt
          cases hgt
        simp [hlt, hgt, hne]
      · have he : eq x y = true := by
          rcases ho.lt_total x y with h | h | h
          · exact absurd h hlt
          · exact h
          · exact absurd h hgt
        simp [hlt, hgt, he, ih]

/-- Pairwise equality is reflexive. -/
theorem spec_pairwise_equal_refl {eq lt : T → T → Bool} (ho : SimpleVector.ElemOrder eq lt) :
    ∀ xs : List T, SimpleVector.spec_pairwise_equal eq xs xs = true
  | [] => rfl
  | x :: xs => by
    simp [SimpleVector.spec_pairwise_equal, ho.eq_refl x, spec_pairwise_equal_refl ho xs]

/-- The lexicographic order is transitive. -/
theorem spec_lexicographic_lt_trans {eq lt : T → T → Bool}
    (ho : SimpleVector.ElemOrder eq lt) :
    ∀ xs ys zs : List T, SimpleVector.spec_lexicographic_lt eq lt xs ys = true →
      SimpleVector.spec_lexicographic_lt eq lt ys zs = true →
      SimpleVector.spec_lexicographic_lt eq lt xs zs = true
  | _, [], [], _, h2 => by simp [SimpleVector.spec_lexicographic_lt] at h2
  | [], [], _ :: _, h1, _ => by simp [SimpleVector.spec_lexicographic_lt] at h1
  | _ :: _, [], _ :: _, h1, _ => by simp [SimpleVector.spec_lexicographic_lt] at h1
  | _, _ :: _, [], _, h2 => by simp [SimpleVector.spec_lexicographic_lt] at h2
  | [], _ :: _, _ :: _, _, _ => rfl
  | x :: xs, y :: ys, z :: zs, h1, h2 => by
    simp only [SimpleVector.spec_lexicographic_lt, Bool.or_eq_true, Bool.and_eq_true] at h1 h2 ⊢
    rcases h1 with h1 | ⟨e1, r1⟩
    · rcases h2 with h2 | ⟨e2, _⟩
      · exact Or.inl (ho.lt_trans x y z h1 h2)
      · left
        rw [← ho.lt_congr x x y z (ho.eq_refl x) e2]
        exact h1
    · rcases h2 with h2 | ⟨e2, r2⟩
      · left
        rw [ho.lt_congr x y z z e1 (ho.eq_refl z)]
        exact h2
      · exact Or.inr ⟨ho.eq_trans x y z e1 e2, spec_lexicographic_lt_trans ho xs ys zs r1 r2⟩

/-- Pairwise equal sequences are not ordered, either way. -/
theorem spec_lexicographic_lt_of_equal {eq lt : T → T → Bool}
    (ho : SimpleVector.ElemOrder eq lt) :
    ∀ xs ys : List T, SimpleVector.spec_pairwise_equal eq xs ys = true →
      SimpleVector.spec_lexicographic_lt eq lt xs ys = false ∧
      SimpleVector.spec_lexicographic_lt eq lt ys xs = false
  | [], [], _ => ⟨rfl, rfl⟩
  | [], _ :: _, h => by simp [SimpleVector.spec_pairwise_equal] at h
  | _ :: _, [], h => by simp [SimpleVector.spec_pairwise_equal] at h
  | x :: xs, y :: ys, h => by
    simp only [SimpleVector.spec_pairwise_equal, Bool.and_eq_true] at h
    obtain ⟨r1, r2⟩ := spec_lexicographic_lt_of_equal ho xs ys h.2
    obtain ⟨l1, l2⟩ := ho.not_lt_of_eq h.1
    simp [SimpleVector.spec_lexicographic_lt, l1, l2, r1, r2]

/-- For an element type whose `==` is equality and whose `<` is a linear order, the
spec-side order is the lexicographic order `List.Lex` of the library. -/
theorem spec_lexicographic_lt_iff_lex {S : Type} [LinearOrder S] :
    ∀ xs ys : List S,
      SimpleVector.spec_lexicographic_lt (fun x y => decide (x = y)) (fun x y => decide (x < y))
        xs ys = true ↔ List.Lex (fun x y => x < y) xs ys
  | [], [] => by
    simp only [SimpleVector.spec_lexicographic_lt, Bool.false_eq_true, false_iff]
    intro h
    cases h
  | [], y :: ys => by
    simp only [SimpleVector.spec_lexicographic_lt, true_iff]
    exact List.Lex.nil
  | x :: xs, [] => by
    simp only [SimpleVector.spec_lexicographic_lt, Bool.false_eq_true, false_iff]
    intro h
    cases h
  | x :: xs, y :: ys => by
    simp only [SimpleVector.spec_lexicographic_lt, Bool.or_eq_true, Bool.and_eq_true,
      decide_eq_true_eq]
    rw [spec_lexicographic_lt_iff_lex xs ys]
    constructor
    · rintro (h | ⟨rfl, h⟩)
      · exact List.Lex.rel h
      · exact List.Lex.cons h
    · intro h
      cases h with
      | cons h => exact Or.inr ⟨rfl, h⟩
      | rel h => exact Or.inl h

/-- Equality and a linear order (the integers, for one) meet the requirements on
the element type. -/
theorem SimpleVector.ElemOrder.of_linearOrder {S : Type} [LinearOrder S] :
    SimpleVector.ElemOrder (fun x y : S => decide (x = y)) (fun x y : S => decide (x < y)) :=
  ⟨fun x => by simp,
   fun x y h => by simp at h ⊢; exact h.symm,
   fun x y z h1 h2 => by simp at h1 h2 ⊢; exact h1.trans h2,
   fun x => by simp,
   fun x y z h1 h2 => by simp at h1 h2 ⊢; exact h1.trans h2,
   fun x y => by
     simp only [decide_eq_true_eq]
     exact lt_trichotomy x y,
   fun x x1 y y1 h1 h2 => by
     simp only [decide_eq_true_eq] at h1 h2
     subst h1
     subst h2
     rfl⟩

namespace SimpleVector

/-- What `operator==` returns on two vectors that hold `xs` and `ys`. -/
theorem operator_eq_spec (eq : T → T → Bool) {a b : SimpleVector T} {xs ys : List T}
    (ha : a.holds xs) (hb : b.holds ys) :
    operator_eq eq a b = .ok (spec_pairwise_equal eq xs ys) := by
  unfold operator_eq
  by_cases hs : a.GetSize ≠ b.GetSize
  · rw [if_pos hs]
    have hne : spec_pairwise_equal eq xs ys ≠ true := by
      intro h
      have := spec_pairwise_equal_length eq xs ys h
      apply hs
      simp only [GetSize]
      rw [← ha.2, ← hb.2, this]
    simp only [Bool.not_eq_true] at hne
    rw [hne]
  · rw [if_neg hs]
    have hlen : xs.length = ys.length := by
      simp only [GetSize, ne_eq, not_not] at hs
      rw [ha.2, hb.2, hs]
    have := std_equal_spec eq a.simple_vector_ b.simple_vector_ xs ys 0 0 hlen
      (fun i h => by simpa using read_of_holds ha i h)
      (fun i h => by simpa using read_of_holds hb i h)
    simpa [cbegin, cend, ha.2] using this

/-- What `operator<` returns on two vectors that hold `xs` and `ys`. -/
theorem operator_lt_spec {eq lt : T → T → Bool} (ho : ElemOrder eq lt)
    {a b : SimpleVector T} {xs ys : List T} (ha : a.holds xs) (hb : b.holds ys) :
    operator_lt lt a b = .ok (spec_lexicographic_lt eq lt xs ys) := by
  have := std_lexicographical_compare_spec ho a.simple_vector_ b.simple_vector_ xs ys 0 0
    (fun i h => by simpa using read_of_holds ha i h)
    (fun i h => by simpa using read_of_holds hb i h)
  simpa [operator_lt, cbegin, cend, ha.2, hb.2] using this

end SimpleVector

end comparison

/-! ## Growth by pushes -/

namespace SimpleVector

variable {T : Type}

/-- Pushes on a vector that is empty with capacity 0, or whose capacity is a power
of two below twice its size, with a buffer of exactly `capacity_` slots, all return
and lead to a vector of the second kind. -/
theorem push_all_doubling (pushes : List (Bool × T)) :
    ∀ v : SimpleVector T, v.simple_vector_.slots = v.capacity_ → v.size_ ≤ v.capacity_ →
      ((v.size_ = 0 ∧ v.capacity_ = 0) ∨ ∃ e, v.capacity_ = 2 ^ e ∧ v.capacity_ < 2 * v.size_) →
      ∃ w : SimpleVector T, push_all v pushes = .ok w ∧
        w.size_ = v.size_ + pushes.length ∧ w.size_ ≤ w.capacity_ ∧
        w.simple_vector_.slots = w.capacity_ ∧
        ((w.size_ = 0 ∧ w.capacity_ = 0) ∨
          ∃ e, w.capacity_ = 2 ^ e ∧ w.capacity_ < 2 * w.size_) := by
  induction pushes with
  | nil =>
    intro v hs hc hj
    exact ⟨v, rfl, rfl, hc, hs, hj⟩
  | cons p rest ih =>
    intro v hs hc hj
    obtain ⟨mv, item⟩ := p
    obtain ⟨v1, hv1, _, hs1, hc1, hsl1⟩ :=
      PushBack_spec v item hc (by omega) (fun _ => by omega)
    have hstep : (if mv then PushBackMove v item else PushBack v item) = .ok v1 := by
      cases mv
      · simpa using hv1
      · simpa [PushBackMove_eq] using hv1
    have hj1 : v1.simple_vector_.slots = v1.capacity_ ∧ v1.size_ ≤ v1.capacity_ ∧
        ∃ e, v1.capacity_ = 2 ^ e ∧ v1.capacity_ < 2 * v1.size_ := by
      by_cases hlt : v.size_ < v.capacity_
      · rw [if_pos hlt] at hc1 hsl1
        rcases hj with ⟨h0, h00⟩ | ⟨e, he, hlt2⟩
        · omega
        · exact ⟨by omega, by omega, e, by omega, by omega⟩
      · rw [if_neg hlt] at hc1 hsl1
        rcases hj with ⟨h0, h00⟩ | ⟨e, he, hlt2⟩
        · refine ⟨by omega, ?_, 0, ?_, ?_⟩
          · rw [hc1, hs1, h0, h00]
            decide
          · rw [hc1, h00]
            rfl
          · rw [hc1, hs1, h0, h00]
            decide
        · have hpos : 1 ≤ 2 ^ e := Nat.one_le_two_pow
          have hmax : max 1 (2 * v.capacity_) = 2 * v.capacity_ := by omega
          refine ⟨by omega, by omega, e + 1, ?_, by omega⟩
          rw [hc1, hmax, he, Nat.pow_succ]
          omega
    obtain ⟨w, hw, hsz, hcw, hslw, hjw⟩ := ih v1 hj1.1 hj1.2.1 (Or.inr hj1.2.2)
    refine ⟨w, ?_, ?_, hcw, hslw, hjw⟩
    · simp only [push_all, hstep, hw]
    · simp only [List.length_cons]
      omega

end SimpleVector

/-! ## The in-capacity branch of Resize -/

namespace SimpleVector

variable {T : Type}

/-- The loop of `Resize` inside the buffer.  For every vector and every `n` with
`size_ < n < capacity_` such that the buffer has slot `n`: the loop of the
in-capacity branch of `Resize` returns
after exactly `n - size_` iterations; afterwards the slots `size_ + 1, ..., n` (all
below `capacity_`) hold `Type{}` and every other slot, in particular slot `size_`
and all slots below it, holds what it held before; and `Resize(n)` returns that
buffer with size `n`. -/
theorem Resize_loop_writes [Inhabited T] (v : SimpleVector T) (n : Nat)
    (h1 : v.size_ < n) (h2 : n < v.capacity_) (h3 : n < v.simple_vector_.slots) :
    ∃ r : ArrayPtr T,
      Resize_loop v.end_ v.simple_vector_ (v.begin_ + n) = .ok (r, n - v.size_) ∧
      r.slots = v.simple_vector_.slots ∧
      (∀ j, v.size_ < j → j ≤ n → j < v.capacity_ ∧ r.raw_ptr_[j]? = some (some default)) ∧
      (∀ j, j ≤ v.size_ → r.raw_ptr_[j]? = v.simple_vector_.raw_ptr_[j]?) ∧
      (∀ j, n < j → r.raw_ptr_[j]? = v.simple_vector_.raw_ptr_[j]?) ∧
      Resize v n = .ok ⟨r, n, v.capacity_⟩ := by
  unfold ArrayPtr.slots at *
  obtain ⟨r, hr, hlen, hget⟩ := Resize_loop_spec v.size_ n v.simple_vector_ (by omega)
    (fun _ => h3)
  have hc : ¬ v.size_ ≥ n := by omega
  refine ⟨r, ?_, hlen, ?_, ?_, ?_, ?_⟩
  · simpa [begin_, end_] using hr
  · intro j hj1 hj2
    refine ⟨by omega, ?_⟩
    rw [hget j, if_pos ⟨hj1, hj2⟩]
  · intro j hj
    rw [hget j, if_neg (by omega)]
  · intro j hj
    rw [hget j, if_neg (by omega)]
  · simp [Resize, hc, h1, h2, begin_, end_, hr]

end SimpleVector

/-! ## The claims -/

namespace SimpleVector

variable {T : Type}

/-- C1, the code at the failing input.  `Resize(1)` on the default-constructed vector
allocates one slot and records capacity 2.  On that vector `size_ <= capacity_`
holds, and `PushBack(5)` (either overload) assigns slot 1 of the one-slot buffer:
the call is undefined and yields no sequence at all. -/
theorem C1_PushBack_after_Resize_undefined :
    Resize (empty : SimpleVector Nat) 1 = .ok ⟨⟨[none]⟩, 1, 2⟩ ∧
    Reachable (⟨⟨[none]⟩, 1, 2⟩ : SimpleVector Nat) ∧
    (⟨⟨[none]⟩, 1, 2⟩ : SimpleVector Nat).size_
      ≤ (⟨⟨[none]⟩, 1, 2⟩ : SimpleVector Nat).capacity_ ∧
    PushBack (⟨⟨[none]⟩, 1, 2⟩ : SimpleVector Nat) 5 = .error .undefined ∧
    PushBackMove (⟨⟨[none]⟩, 1, 2⟩ : SimpleVector Nat) 5 = .error .undefined :=
  ⟨by decide, Reachable.Resize empty 1 _ Reachable.empty (by decide), by decide, by decide,
    by decide⟩

/-- C2, the code at the failing input.  Reserve 2, push 1, copy: the copy constructor
allocates `other.size_ = 1` slot and records `other.capacity_ = 2`.  On the copy
`size_ <= capacity_` holds and 1 is a valid position, and `Insert` at position 1
(either overload) assigns slot 1 of the one-slot buffer: the call is undefined. -/
theorem C2_Insert_after_copy_undefined :
    (from_reservation 2 : Except Fault (SimpleVector Nat)) = .ok ⟨⟨[none, none]⟩, 0, 2⟩ ∧
    PushBack (⟨⟨[none, none]⟩, 0, 2⟩ : SimpleVector Nat) 1 = .ok ⟨⟨[some 1, none]⟩, 1, 2⟩ ∧
    copy (⟨⟨[some 1, none]⟩, 1, 2⟩ : SimpleVector Nat) = .ok ⟨⟨[some 1]⟩, 1, 2⟩ ∧
    Reachable (⟨⟨[some 1]⟩, 1, 2⟩ : SimpleVector Nat) ∧
    Insert (⟨⟨[some 1]⟩, 1, 2⟩ : SimpleVector Nat) 1 5 = .error .undefined ∧
    InsertMove (⟨⟨[some 1]⟩, 1, 2⟩ : SimpleVector Nat) 1 5 = .error .undefined :=
  ⟨by decide, by decide, by decide,
    Reachable.copy ⟨⟨[some 1, none]⟩, 1, 2⟩ ⟨⟨[some 1]⟩, 1, 2⟩
      (Reachable.PushBack ⟨⟨[none, none]⟩, 0, 2⟩ 1 ⟨⟨[some 1, none]⟩, 1, 2⟩
        (Reachable.from_reservation 2 ⟨⟨[none, none]⟩, 0, 2⟩ (by decide)) (by decide))
      (by decide),
    by decide, by decide⟩

/-- C3.  For every vector with live sequence `s` and every index `k < size_`: `Erase`
at position `k` returns position `k`, the sequence becomes `s` without its element
at index `k` (the others in their order), the size drops by one and the capacity is
unchanged. -/
theorem C3_Erase_removes [Inhabited T] (v : SimpleVector T) (k : Nat)
    (hv : Reachable v) (hk : k < v.size_) :
    ∃ w : SimpleVector T, Erase v k = .ok (w, k) ∧
      w.live = v.live.take k ++ v.live.drop (k + 1) ∧
      w.size_ + 1 = v.size_ ∧ w.capacity_ = v.capacity_ := by
  obtain ⟨w, hw, hl, hs, hc, _⟩ := Erase_spec v k hk (reachable_inv hv).1
  refine ⟨w, hw, ?_, by omega, hc⟩
  rw [hl, List.eraseIdx_eq_take_drop_succ]

/-- C3, witness: `{10, 20, 30, 40}` with index 1 erased is `[10, 30, 40]`, size 3,
capacity 4. -/
theorem C3_Erase_removes_witness :
    ∃ w : SimpleVector Nat,
      Erase (⟨⟨[some 10, some 20, some 30, some 40]⟩, 4, 4⟩ : SimpleVector Nat) 1
        = .ok (w, 1) ∧
      w.live = [some 10, some 30, some 40] ∧ w.size_ = 3 ∧ w.capacity_ = 4 := by
  obtain ⟨w, h1, h2, h3, h4⟩ :=
    C3_Erase_removes (⟨⟨[some 10, some 20, some 30, some 40]⟩, 4, 4⟩ : SimpleVector Nat) 1
      (Reachable.from_sequence [10, 20, 30, 40] _ (by decide)) (by decide)
  exact ⟨w, h1, h2, by simpa using h3, h4⟩

/-- C4, the code at the failing input.  On the vector left by `Resize(2)` of the
default-constructed vector (two slots, capacity 4), position 0 is valid, and
`Insert` at position 0 (either overload) first shifts the last element into slot 2
of the two-slot buffer: the call is undefined, there is no returned position to
erase at. -/
theorem C4_Insert_after_Resize_undefined :
    Resize (empty : SimpleVector Nat) 2 = .ok ⟨⟨[none, none]⟩, 2, 4⟩ ∧
    Reachable (⟨⟨[none, none]⟩, 2, 4⟩ : SimpleVector Nat) ∧
    Insert (⟨⟨[none, none]⟩, 2, 4⟩ : SimpleVector Nat) 0 5 = .error .undefined ∧
    InsertMove (⟨⟨[none, none]⟩, 2, 4⟩ : SimpleVector Nat) 0 5 = .error .undefined :=
  ⟨by decide, Reachable.Resize empty 2 _ Reachable.empty (by decide), by decide, by decide⟩

/-- C5.  For every vector and every index `i`: `At(i)` yields the `i`-th live element
when `i < size_`, throws `out_of_range` exactly when `i >= size_` (so `At(size_)`
throws), and in both cases the vector after the call is the vector before it. -/
theorem C5_At_checked [Inhabited T] (v : SimpleVector T) (i : Nat) (hv : Reachable v) :
    (i < v.size_ → ∃ x, (At v i).1 = .ok x ∧ v.live[i]? = some x) ∧
    ((At v i).1 = .error .out_of_range ↔ v.size_ ≤ i) ∧
    (At v v.size_).1 = .error .out_of_range ∧
    (At v i).2 = v := by
  have hlive := (reachable_inv hv).1
  unfold ArrayPtr.slots at hlive
  have hok : i < v.size_ → ∃ x, (At v i).1 = .ok x ∧ v.live[i]? = some x := by
    intro hi
    have hlt : i < v.simple_vector_.raw_ptr_.length := by omega
    refine ⟨v.simple_vector_.raw_ptr_[i], ?_, ?_⟩
    · simp [At, hi, ArrayPtr.index_lt hlt]
    · simp [live, List.getElem?_take, hi, List.getElem?_eq_getElem hlt]
  refine ⟨hok, ?_, ?_, ?_⟩
  · constructor
    · intro h
      by_contra hc
      obtain ⟨x, hx, _⟩ := hok (by omega)
      rw [hx] at h
      cases h
    · intro h
      have : ¬ i < v.size_ := by omega
      simp [At, this]
  · simp [At]
  · unfold At
    split <;> rfl

/-- C5, witness: on `[1, 2, 3]`, `At(1)` reads 2 and `At(3)` throws. -/
theorem C5_At_checked_witness :
    (At (⟨⟨[some 1, some 2, some 3]⟩, 3, 3⟩ : SimpleVector Nat) 1).1 = .ok (some 2) ∧
    (At (⟨⟨[some 1, some 2, some 3]⟩, 3, 3⟩ : SimpleVector Nat) 3).1
      = .error .out_of_range := by
  have h := C5_At_checked (⟨⟨[some 1, some 2, some 3]⟩, 3, 3⟩ : SimpleVector Nat) 1
    (Reachable.from_sequence [1, 2, 3] _ (by decide))
  exact ⟨by decide, h.2.2.1⟩

/-- C6, the code at two failing inputs.  (a) `{7, 9, 9}`, `Clear()`, `Resize(1)`: the
loop of the in-capacity branch starts at slot 1 and stops before slot 0, so the one
live element is the stale 7, not `Type{}` (0).  (b) `Resize(1)` on the
default-constructed vector: the grow branch moves the old elements into a fresh
buffer and initialises nothing, so the one live element is an unspecified slot. -/
theorem C6_Resize_leaves_slot_uninitialised :
    (from_sequence [7, 9, 9] : Except Fault (SimpleVector Nat))
      = .ok ⟨⟨[some 7, some 9, some 9]⟩, 3, 3⟩ ∧
    Clear (⟨⟨[some 7, some 9, some 9]⟩, 3, 3⟩ : SimpleVector Nat)
      = ⟨⟨[some 7, some 9, some 9]⟩, 0, 3⟩ ∧
    Resize (⟨⟨[some 7, some 9, some 9]⟩, 0, 3⟩ : SimpleVector Nat) 1
      = .ok ⟨⟨[some 7, some 0, some 9]⟩, 1, 3⟩ ∧
    (⟨⟨[some 7, some 0, some 9]⟩, 1, 3⟩ : SimpleVector Nat).live = [some 7] ∧
    (some 7 : Option Nat) ≠ some default ∧
    Resize (empty : SimpleVector Nat) 1 = .ok ⟨⟨[none]⟩, 1, 2⟩ ∧
    (⟨⟨[none]⟩, 1, 2⟩ : SimpleVector Nat).live = [none] ∧
    (none : Option Nat) ≠ some default :=
  ⟨by decide, by decide, by decide, by decide, by decide, by decide, by decide, by decide⟩

/-- C7, counterexample.  On the vector built from a reservation of 1 (size 0, capacity
1), `Resize(1)` has `n <= capacity_`, yet the test `capacity_ > new_size` fails, the
grow branch runs and the capacity becomes 2.  (Apart from that: on the vector left
by `Resize(2)` of the default-constructed vector, two slots with capacity 4,
`Resize(3)` takes the in-capacity branch and assigns slot 3, outside the buffer.) -/
theorem C7_Resize_to_capacity_grows :
    (from_reservation 1 : Except Fault (SimpleVector Nat)) = .ok ⟨⟨[none]⟩, 0, 1⟩ ∧
    (1 : Nat) ≤ (⟨⟨[none]⟩, 0, 1⟩ : SimpleVector Nat).capacity_ ∧
    Resize (⟨⟨[none]⟩, 0, 1⟩ : SimpleVector Nat) 1 = .ok ⟨⟨[none]⟩, 1, 2⟩ ∧
    (⟨⟨[none]⟩, 1, 2⟩ : SimpleVector Nat).capacity_
      ≠ (⟨⟨[none]⟩, 0, 1⟩ : SimpleVector Nat).capacity_ ∧
    Resize (empty : SimpleVector Nat) 2 = .ok ⟨⟨[none, none]⟩, 2, 4⟩ ∧
    Resize (⟨⟨[none, none]⟩, 2, 4⟩ : SimpleVector Nat) 3 = .error .undefined :=
  ⟨by decide, by decide, by decide, by decide, by decide, by decide⟩

/-- C7, amended.  For every vector and every `n` such that the buffer has slot `n`
whenever `size_ < n < capacity_`: `Resize(n)` returns, the size is `n` afterwards,
the capacity is unchanged whenever `n <= size_` or `n < capacity_`, and is `2 * n`
whenever `n > size_` and `n >= capacity_` (which includes `n = capacity_`). -/
theorem C7_Resize_size_and_capacity [Inhabited T] (v : SimpleVector T) (n : Nat)
    (hv : Reachable v)
    (hslot : v.size_ < n → n < v.capacity_ → n < v.simple_vector_.slots) :
    ∃ w : SimpleVector T, Resize v n = .ok w ∧ w.size_ = n ∧
      (n ≤ v.size_ ∨ n < v.capacity_ → w.capacity_ = v.capacity_) ∧
      (v.size_ < n ∧ v.capacity_ ≤ n → w.capacity_ = 2 * n) := by
  have hlive := (reachable_inv hv).1
  by_cases c1 : n ≤ v.size_
  · refine ⟨_, Resize_shrink v n c1, rfl, fun _ => rfl, fun h => ?_⟩
    omega
  · by_cases c2 : n < v.capacity_
    · obtain ⟨w, hw, hs, hc, _⟩ :=
        Resize_in_capacity v n (by omega) c2 (hslot (by omega) c2)
      exact ⟨w, hw, hs, fun _ => hc, fun h => by omega⟩
    · refine ⟨_, Resize_grow v n (by omega) (by omega) hlive, rfl, fun h => ?_,
        fun _ => ?_⟩
      · omega
      · simp only
        omega

/-- C7, witness: `Resize(3)` on `{1, 2}` (size and capacity 2) gives size 3 and
capacity 6. -/
theorem C7_Resize_size_and_capacity_witness :
    ∃ w : SimpleVector Nat,
      Resize (⟨⟨[some 1, some 2]⟩, 2, 2⟩ : SimpleVector Nat) 3 = .ok w ∧
      w.size_ = 3 ∧ w.capacity_ = 6 := by
  obtain ⟨w, h1, h2, _, h3⟩ :=
    C7_Resize_size_and_capacity (⟨⟨[some 1, some 2]⟩, 2, 2⟩ : SimpleVector Nat) 3
      (Reachable.from_sequence [1, 2] _ (by decide)) (by decide)
  exact ⟨w, h1, h2, h3 (by decide)⟩

/-- C8.  For every vector and every `c`: if `c <= capacity_`, `Reserve(c)` changes
nothing; otherwise it returns with capacity exactly `c`, and with the size and the
live sequence unchanged. -/
theorem C8_Reserve_frame [Inhabited T] (v : SimpleVector T) (c : Nat) (hv : Reachable v) :
    (c ≤ v.capacity_ → Reserve v c = .ok v) ∧
    (v.capacity_ < c → ∃ w : SimpleVector T, Reserve v c = .ok w ∧
      w.capacity_ = c ∧ w.size_ = v.size_ ∧ w.live = v.live) := by
  have hi := reachable_inv hv
  obtain ⟨h1, h2⟩ := Reserve_spec v c (by omega) hi.1
  refine ⟨h1, fun h => ?_⟩
  obtain ⟨w, hw, hl, hs, hc, _⟩ := h2 h
  exact ⟨w, hw, hc, hs, hl⟩

/-- C8, witness: `Reserve(5)` on `[1, 2]` with capacity 2 gives capacity 5 and keeps
`[1, 2]`. -/
theorem C8_Reserve_frame_witness :
    ∃ w : SimpleVector Nat,
      Reserve (⟨⟨[some 1, some 2]⟩, 2, 2⟩ : SimpleVector Nat) 5 = .ok w ∧
      w.capacity_ = 5 ∧ w.size_ = 2 ∧ w.live = [some 1, some 2] :=
  (C8_Reserve_frame (⟨⟨[some 1, some 2]⟩, 2, 2⟩ : SimpleVector Nat) 5
    (Reachable.from_sequence [1, 2] _ (by decide))).2 (by decide)

/-- C9.  For every `c` and every sequence of at most `c` `PushBack` calls (of either
overload) on the vector constructed from a reservation of `c`: the construction
returns with capacity `c`, and after each of the pushes (after the first `j` of
them, for every `j`) the call has returned, the capacity is still `c`, and the size
is the number of pushes made. -/
theorem C9_reserved_pushes_keep_capacity (c : Nat) (pushes : List (Bool × T))
    (h : pushes.length ≤ c) :
    ∃ v0 : SimpleVector T, from_reservation c = .ok v0 ∧ v0.capacity_ = c ∧ v0.size_ = 0 ∧
      ∀ j, j ≤ pushes.length →
        ∃ w : SimpleVector T, push_all v0 (pushes.take j) = .ok w ∧
          w.capacity_ = c ∧ w.size_ = j ∧
          w.live = (pushes.take j).map (fun e => some e.2) := by
  refine ⟨_, from_reservation_spec c, rfl, rfl, ?_⟩
  intro j hj
  have hlen : (pushes.take j).length = j := by
    rw [List.length_take]
    omega
  obtain ⟨w, hw, hl, hs, hc, _⟩ := push_all_spec (pushes.take j)
    (⟨⟨List.replicate c none⟩, 0, c⟩ : SimpleVector T)
    (by simp [ArrayPtr.slots]) (by simp only [hlen]; omega)
  refine ⟨w, hw, hc, ?_, ?_⟩
  · rw [hs, hlen]
    simp
  · rw [hl]
    simp [live]

/-- C9, witness: reservation of 8 and the pushes 0..7, alternating overloads; after all
eight the capacity is 8 and the size 8. -/
theorem C9_reserved_pushes_keep_capacity_witness :
    ∃ v0 w : SimpleVector Nat, from_reservation 8 = .ok v0 ∧
      push_all v0 [(false, 0), (true, 1), (false, 2), (true, 3), (false, 4), (true, 5),
        (false, 6), (true, 7)] = .ok w ∧
      w.capacity_ = 8 ∧ w.size_ = 8 := by
  obtain ⟨v0, h0, _, _, hall⟩ := C9_reserved_pushes_keep_capacity 8
    [(false, 0), (true, 1), (false, 2), (true, 3), (false, 4), (true, 5), (false, 6), (true, 7)]
    (by decide)
  obtain ⟨w, hw, hc, hs, _⟩ := hall 8 (by decide)
  exact ⟨v0, w, h0, by simpa using hw, hc, hs⟩

/-- C10.  Every state reachable from any constructor through any sequence of member
function calls satisfies `size_ <= capacity_` (sizes being natural numbers). -/
theorem C10_size_le_capacity [Inhabited T] (v : SimpleVector T) (hv : Reachable v) :
    v.size_ ≤ v.capacity_ := by
  have h := reachable_inv hv
  omega

/-- C10, witness: the vector left by `Resize(3)` after `PushBack(1)` on the empty
vector. -/
theorem C10_size_le_capacity_witness :
    (⟨⟨[some 1, none, none]⟩, 3, 6⟩ : SimpleVector Nat).size_
      ≤ (⟨⟨[some 1, none, none]⟩, 3, 6⟩ : SimpleVector Nat).capacity_ :=
  C10_size_le_capacity _
    (Reachable.Resize ⟨⟨[some 1]⟩, 1, 1⟩ 3 ⟨⟨[some 1, none, none]⟩, 3, 6⟩
      (Reachable.PushBack empty 1 ⟨⟨[some 1]⟩, 1, 1⟩ Reachable.empty (by decide)) (by decide))

/-- C11, the code at two failing inputs.  (a) `Resize(3)` on the default-constructed
vector (`n >= capacity_`): the grow branch allocates 3 slots and records capacity 6.
(b) Copy construction from the vector built from a reservation of 3 (size 0,
capacity 3): the copy allocates `other.size_ = 0` slots and records capacity 3.
Both vectors are reachable, and in both the capacity is not the slot count of the
buffer. -/
theorem C11_capacity_exceeds_buffer :
    Resize (empty : SimpleVector Nat) 3 = .ok ⟨⟨[none, none, none]⟩, 3, 6⟩ ∧
    Reachable (⟨⟨[none, none, none]⟩, 3, 6⟩ : SimpleVector Nat) ∧
    (⟨⟨[none, none, none]⟩, 3, 6⟩ : SimpleVector Nat).simple_vector_.slots = 3 ∧
    (⟨⟨[none, none, none]⟩, 3, 6⟩ : SimpleVector Nat).capacity_ = 6 ∧
    (from_reservation 3 : Except Fault (SimpleVector Nat))
      = .ok ⟨⟨[none, none, none]⟩, 0, 3⟩ ∧
    copy (⟨⟨[none, none, none]⟩, 0, 3⟩ : SimpleVector Nat) = .ok ⟨⟨[]⟩, 0, 3⟩ ∧
    Reachable (⟨⟨[]⟩, 0, 3⟩ : SimpleVector Nat) ∧
    (⟨⟨[]⟩, 0, 3⟩ : SimpleVector Nat).simple_vector_.slots = 0 ∧
    (⟨⟨[]⟩, 0, 3⟩ : SimpleVector Nat).capacity_ = 3 :=
  ⟨by decide, Reachable.Resize empty 3 _ Reachable.empty (by decide), by decide, by decide,
    by decide, by decide,
    Reachable.copy ⟨⟨[none, none, none]⟩, 0, 3⟩ ⟨⟨[]⟩, 0, 3⟩
      (Reachable.from_reservation 3 ⟨⟨[none, none, none]⟩, 0, 3⟩ (by decide)) (by decide),
    by decide, by decide⟩

/-- C12.  For every vector and every call among `Clear`, `Resize`, `PushBack`, `Insert`
(both overloads each), `PopBack`, `Erase` and `Reserve`: when the call returns (its
precondition holds and it makes no access outside the buffer), the capacity
afterwards is at least the capacity before; the same holds from the start to the
end of every sequence of such calls; and on a vector with `size_ <= capacity_`
whose buffer has `capacity_` slots, every call whose precondition holds does
return. -/
theorem C12_capacity_never_decreases [Inhabited T] (v : SimpleVector T) :
    (∀ (op : Op T) (w : SimpleVector T), call v op = .ok w → v.capacity_ ≤ w.capacity_) ∧
    (∀ (ops : List (Op T)) (w : SimpleVector T),
      call_all v ops = .ok w → v.capacity_ ≤ w.capacity_) ∧
    (∀ op : Op T, v.size_ ≤ v.capacity_ → v.capacity_ ≤ v.simple_vector_.slots → op.pre v →
      ∃ w : SimpleVector T, call v op = .ok w ∧ v.capacity_ ≤ w.capacity_) := by
  refine ⟨fun op w h => call_capacity_le h, fun ops w h => call_all_capacity_le ops h, ?_⟩
  intro op hcap hbuf hpre
  obtain ⟨w, hw⟩ := call_returns v op hcap hbuf hpre
  exact ⟨w, hw, call_capacity_le hw⟩

/-- C12, witness: on `{1, 2}` the calls `PushBack(3)`, `Erase(begin())`, `Resize(1)`,
`Reserve(10)`, `Clear()`, `PopBack()`, `Insert(begin(), 4)` return a vector of
capacity 10, and 2 is at most 10. -/
theorem C12_capacity_never_decreases_witness :
    call_all (⟨⟨[some 1, some 2]⟩, 2, 2⟩ : SimpleVector Nat)
        [.PushBack 3, .Erase 0, .Resize 1, .Reserve 10, .Clear, .PopBack, .Insert 0 4]
      = .ok ⟨⟨[some 4, none, none, none, none, none, none, none, none, none]⟩, 1, 10⟩ ∧
    (2 : Nat) ≤ 10 ∧
    ∃ w : SimpleVector Nat,
      call (⟨⟨[some 1, some 2]⟩, 2, 2⟩ : SimpleVector Nat) (.PushBack 3) = .ok w ∧
      2 ≤ w.capacity_ :=
  ⟨by decide,
    (C12_capacity_never_decreases (⟨⟨[some 1, some 2]⟩, 2, 2⟩ : SimpleVector Nat)).2.1
      [.PushBack 3, .Erase 0, .Resize 1, .Reserve 10, .Clear, .PopBack, .Insert 0 4]
      ⟨⟨[some 4, none, none, none, none, none, none, none, none, none]⟩, 1, 10⟩ (by decide),
    (C12_capacity_never_decreases (⟨⟨[some 1, some 2]⟩, 2, 2⟩ : SimpleVector Nat)).2.2
      (.PushBack 3) (by decide) (by decide) (by decide)⟩

/-- C13, the code at the failing input.  `{1, 2, 3}`, `PopBack()`, copy: the source has
size 2 and capacity 3; the copy holds `[1, 2]` with size 2, but its capacity is 3,
the capacity of the source, not the size of the source. -/
theorem C13_copy_keeps_source_capacity :
    (from_sequence [1, 2, 3] : Except Fault (SimpleVector Nat))
      = .ok ⟨⟨[some 1, some 2, some 3]⟩, 3, 3⟩ ∧
    PopBack (⟨⟨[some 1, some 2, some 3]⟩, 3, 3⟩ : SimpleVector Nat)
      = ⟨⟨[some 1, some 2, some 3]⟩, 2, 3⟩ ∧
    copy (⟨⟨[some 1, some 2, some 3]⟩, 2, 3⟩ : SimpleVector Nat)
      = .ok ⟨⟨[some 1, some 2]⟩, 2, 3⟩ ∧
    (⟨⟨[some 1, some 2]⟩, 2, 3⟩ : SimpleVector Nat).capacity_
      ≠ (⟨⟨[some 1, some 2, some 3]⟩, 2, 3⟩ : SimpleVector Nat).size_ ∧
    (⟨⟨[some 1, some 2]⟩, 2, 3⟩ : SimpleVector Nat).capacity_
      ≠ (⟨⟨[some 1, some 2]⟩, 2, 3⟩ : SimpleVector Nat).size_ :=
  ⟨by decide, by decide, by decide, by decide, by decide⟩

/-- C14.  For every vector `other`, move construction gives a destination with the
buffer, hence the element sequence, the size and the capacity that `other` had, and
leaves `other` with size 0, capacity 0 and the null buffer: empty.  So moving
`[1, 2, 3]` gives `[1, 2, 3]` and leaves the empty vector. -/
theorem C14_move_constructor (other : SimpleVector T) :
    (move other).1.simple_vector_ = other.simple_vector_ ∧
    (move other).1.live = other.live ∧
    (move other).1.size_ = other.size_ ∧
    (move other).1.capacity_ = other.capacity_ ∧
    (move other).2.size_ = 0 ∧
    (move other).2.capacity_ = 0 ∧
    (move other).2.IsEmpty = true ∧
    (move other).2.live = [] ∧
    (move other).2.simple_vector_.slots = 0 ∧
    move (⟨⟨[some 1, some 2, some 3]⟩, 3, 3⟩ : SimpleVector Nat)
      = (⟨⟨[some 1, some 2, some 3]⟩, 3, 3⟩, empty) := by
  refine ⟨rfl, rfl, rfl, rfl, rfl, rfl, rfl, ?_, ?_, by decide⟩
  · simp [move, live]
  · simp [move, ArrayPtr.move_assign, ArrayPtr.slots, ArrayPtr.new]

/-- C15, counterexample.  With `lhs` the default-constructed vector and `rhs` the vector
`{1, 2, 3}`, the expression `lhs = std::move(rhs)` runs the copy assignment: `lhs`
holds `[1, 2, 3]` afterwards, and `rhs` still has size 3 and capacity 3. -/
theorem C15_rvalue_assignment_keeps_rhs :
    operator_assign_rvalue (empty : SimpleVector Nat) ⟨⟨[some 1, some 2, some 3]⟩, 3, 3⟩
      = .ok (⟨⟨[some 1, some 2, some 3]⟩, 3, 3⟩, ⟨⟨[some 1, some 2, some 3]⟩, 3, 3⟩) ∧
    (⟨⟨[some 1, some 2, some 3]⟩, 3, 3⟩ : SimpleVector Nat).size_ ≠ 0 ∧
    (⟨⟨[some 1, some 2, some 3]⟩, 3, 3⟩ : SimpleVector Nat).capacity_ ≠ 0 :=
  ⟨by decide, by decide, by decide⟩

/-- C15, amended.  For every pair of distinct vectors `lhs` and `rhs`, the expression
`lhs = std::move(rhs)` (which the class resolves to its copy assignment, having no
move assignment) returns, leaves `lhs` holding the element sequence and the size of
`rhs`, and leaves `rhs` as it was. -/
theorem C15_rvalue_assignment_copies [Inhabited T] (lhs rhs : SimpleVector T)
    (hr : Reachable rhs) :
    ∃ w : SimpleVector T, operator_assign_rvalue lhs rhs = .ok (w, rhs) ∧
      w.live = rhs.live ∧ w.size_ = rhs.size_ := by
  have hlive := (reachable_inv hr).1
  refine ⟨⟨⟨rhs.live⟩, rhs.size_, rhs.capacity_⟩, ?_, ?_, rfl⟩
  · simp [operator_assign_rvalue, operator_assign, copy_spec rhs hlive, swap, ArrayPtr.swap]
  · unfold ArrayPtr.slots at hlive
    simp only [live, List.take_take]
    congr 1
    omega

/-- C15, witness: `lhs = std::move(rhs)` with `lhs = {7}` and `rhs = {1, 2}` leaves
`lhs` holding `[1, 2]` and `rhs` unchanged. -/
theorem C15_rvalue_assignment_copies_witness :
    ∃ w : SimpleVector Nat,
      operator_assign_rvalue (⟨⟨[some 7]⟩, 1, 1⟩ : SimpleVector Nat) ⟨⟨[some 1, some 2]⟩, 2, 2⟩
        = .ok (w, ⟨⟨[some 1, some 2]⟩, 2, 2⟩) ∧
      w.live = [some 1, some 2] ∧ w.size_ = 2 :=
  C15_rvalue_assignment_copies (⟨⟨[some 7]⟩, 1, 1⟩ : SimpleVector Nat) ⟨⟨[some 1, some 2]⟩, 2, 2⟩
    (Reachable.from_sequence [1, 2] _ (by decide))

/-- C16.  Let the element type's `==` be an equivalence and its `<` a strict total
order that respects `==`, and let `a`, `b`, `c` be vectors holding the element
sequences `xs`, `ys`, `zs`.  Then `a == b` is true exactly when the sizes are equal
and the elements are pairwise equal (and is false otherwise); `a < b` is the strict
lexicographic order of `xs` and `ys`; `a == a`; `a < b` and `b < c` give `a < c`;
and `a == b` gives neither `a < b` nor `b < a`.  The derived operators are the
negations and the mirror images they are written as. -/
theorem C16_comparison_laws (eq lt : T → T → Bool) (ho : ElemOrder eq lt)
    (a b c : SimpleVector T) (xs ys zs : List T)
    (ha : a.holds xs) (hb : b.holds ys) (hc : c.holds zs) :
    (operator_eq eq a b = .ok true ↔
      a.size_ = b.size_ ∧
        ∀ i (h1 : i < xs.length) (h2 : i < ys.length),
          eq (xs.get ⟨i, h1⟩) (ys.get ⟨i, h2⟩) = true) ∧
    (operator_eq eq a b = .ok true ∨ operator_eq eq a b = .ok false) ∧
    operator_lt lt a b = .ok (spec_lexicographic_lt eq lt xs ys) ∧
    operator_eq eq a a = .ok true ∧
    (operator_lt lt a b = .ok true → operator_lt lt b c = .ok true →
      operator_lt lt a c = .ok true) ∧
    (operator_eq eq a b = .ok true →
      operator_lt lt a b = .ok false ∧ operator_lt lt b a = .ok false) ∧
    operator_ne eq a b = (operator_eq eq a b).map (fun r => !r) ∧
    operator_gt lt a b = operator_lt lt b a ∧
    operator_le lt a b = (operator_lt lt b a).map (fun r => !r) ∧
    operator_ge lt a b = (operator_lt lt a b).map (fun r => !r) := by
  have heq := operator_eq_spec eq ha hb
  have hab := operator_lt_spec ho ha hb
  have hba := operator_lt_spec ho hb ha
  have hbc := operator_lt_spec ho hb hc
  have hac := operator_lt_spec ho ha hc
  refine ⟨?_, ?_, hab, ?_, ?_, ?_, ?_, rfl, ?_, ?_⟩
  · rw [heq]
    simp only [Except.ok.injEq]
    rw [spec_pairwise_equal_iff, ← ha.2, ← hb.2]
  · rw [heq]
    cases spec_pairwise_equal eq xs ys <;> simp
  · rw [operator_eq_spec eq ha ha, spec_pairwise_equal_refl ho]
  · rw [hab, hbc, hac]
    simp only [Except.ok.injEq]
    exact spec_lexicographic_lt_trans ho xs ys zs
  · rw [heq, hab, hba]
    simp only [Except.ok.injEq]
    exact spec_lexicographic_lt_of_equal ho xs ys
  · unfold operator_ne
    cases operator_eq eq a b <;> rfl
  · unfold operator_le
    cases operator_lt lt b a <;> rfl
  · unfold operator_ge
    cases operator_lt lt a b <;> rfl

/-- C16, witness: natural numbers with their `==` and `<`; `a = [1, 2]`, `b = [1, 3]`
(with a spare slot), `c = [2]`: `a == a`, `a < b`, and from `a < b` and `b < c`
follows `a < c`. -/
theorem C16_comparison_laws_witness :
    operator_eq (fun x y : Nat => decide (x = y)) (⟨⟨[some 1, some 2]⟩, 2, 2⟩ : SimpleVector Nat)
        ⟨⟨[some 1, some 2]⟩, 2, 2⟩ = .ok true ∧
    operator_lt (fun x y : Nat => decide (x < y)) (⟨⟨[some 1, some 2]⟩, 2, 2⟩ : SimpleVector Nat)
        ⟨⟨[some 1, some 3, none]⟩, 2, 3⟩ = .ok true ∧
    operator_lt (fun x y : Nat => decide (x < y)) (⟨⟨[some 1, some 2]⟩, 2, 2⟩ : SimpleVector Nat)
        ⟨⟨[some 2]⟩, 1, 1⟩ = .ok true := by
  have ho : ElemOrder (fun x y : Nat => decide (x = y)) (fun x y : Nat => decide (x < y)) :=
    ElemOrder.of_linearOrder
  have h := C16_comparison_laws (fun x y : Nat => decide (x = y))
    (fun x y : Nat => decide (x < y)) ho
    (⟨⟨[some 1, some 2]⟩, 2, 2⟩ : SimpleVector Nat) ⟨⟨[some 1, some 3, none]⟩, 2, 3⟩
    ⟨⟨[some 2]⟩, 1, 1⟩ [1, 2] [1, 3] [2] ⟨rfl, rfl⟩ ⟨rfl, rfl⟩ ⟨rfl, rfl⟩
  exact ⟨h.2.2.2.1, by decide, h.2.2.2.2.1 (by decide) (by decide)⟩

/-- C17.  For every vector and every value, `Insert` at the end position (`k = size_`)
has the outcome of `PushBack`, for the copying and for the moving overloads: both
return the same vector (same buffer, hence same live sequence, same size, same
capacity), with `Insert` returning position `size_`, or both fail alike.  On a
vector with `size_ <= capacity_` whose buffer holds the live slots and, when
`size_ < capacity_`, slot `size_`, both do return: the common result has the live
sequence `old ++ [value]` and size `size_ + 1`. -/
theorem C17_Insert_at_end_is_PushBack (v : SimpleVector T) (value : T) :
    Insert v v.size_ value = (PushBack v value).map (fun w => (w, v.size_)) ∧
    InsertMove v v.size_ value = (PushBackMove v value).map (fun w => (w, v.size_)) ∧
    (v.size_ ≤ v.capacity_ → v.size_ ≤ v.simple_vector_.slots →
      (v.size_ < v.capacity_ → v.size_ < v.simple_vector_.slots) →
      ∃ w : SimpleVector T, PushBack v value = .ok w ∧ Insert v v.size_ value = .ok (w, v.size_) ∧
        PushBackMove v value = .ok w ∧ InsertMove v v.size_ value = .ok (w, v.size_) ∧
        w.live = v.live ++ [some value] ∧ w.size_ = v.size_ + 1) := by
  have h1 : Insert v v.size_ value = (PushBack v value).map (fun w => (w, v.size_)) :=
    Insert_cend_eq_PushBack v value
  have h2 : InsertMove v v.size_ value = (PushBackMove v value).map (fun w => (w, v.size_)) := by
    have h := InsertMove_end_eq_PushBackMove v value
    simpa [end_, begin_] using h
  refine ⟨h1, h2, ?_⟩
  intro hcap hlive hslot
  obtain ⟨w, hw, hl, hs, _⟩ := PushBack_spec v value hcap hlive hslot
  refine ⟨w, hw, ?_, hw, ?_, hl, hs⟩
  · rw [h1, hw]
    rfl
  · rw [h2, PushBackMove_eq, hw]
    rfl

/-- C17, witness: on `[1, 2]` with capacity 2, `PushBack(5)` and `Insert(end(), 5)` both
give `[1, 2, 5]` with size 3 in the same vector. -/
theorem C17_Insert_at_end_is_PushBack_witness :
    ∃ w : SimpleVector Nat,
      PushBack (⟨⟨[some 1, some 2]⟩, 2, 2⟩ : SimpleVector Nat) 5 = .ok w ∧
      Insert (⟨⟨[some 1, some 2]⟩, 2, 2⟩ : SimpleVector Nat) 2 5 = .ok (w, 2) ∧
      w.live = [some 1, some 2, some 5] ∧ w.size_ = 3 := by
  obtain ⟨w, h1, h2, _, _, h3, h4⟩ :=
    (C17_Insert_at_end_is_PushBack (⟨⟨[some 1, some 2]⟩, 2, 2⟩ : SimpleVector Nat) 5).2.2
      (by decide) (by decide) (by decide)
  exact ⟨w, h1, h2, h3, h4⟩

/-- C18, the code at two failing inputs.  (a) `{1, 2}`, `Resize(3)` (`n >= capacity_`):
three slots, size 3, capacity 6; the next `PushBack` takes the path without
reallocation (`size_ < capacity_`) and assigns slot 3, which the buffer does not
have.  (b) Reserve 4, push 1, push 2, copy (spare capacity in the source): two
slots, size 2, capacity 4; `PushBack` assigns slot 2 and `Insert` at position 0
shifts into slot 2, which the buffer does not have.  All three calls are
undefined. -/
theorem C18_write_past_buffer :
    (from_sequence [1, 2] : Except Fault (SimpleVector Nat)) = .ok ⟨⟨[some 1, some 2]⟩, 2, 2⟩ ∧
    Resize (⟨⟨[some 1, some 2]⟩, 2, 2⟩ : SimpleVector Nat) 3
      = .ok ⟨⟨[some 1, some 2, none]⟩, 3, 6⟩ ∧
    Reachable (⟨⟨[some 1, some 2, none]⟩, 3, 6⟩ : SimpleVector Nat) ∧
    (⟨⟨[some 1, some 2, none]⟩, 3, 6⟩ : SimpleVector Nat).size_
      < (⟨⟨[some 1, some 2, none]⟩, 3, 6⟩ : SimpleVector Nat).capacity_ ∧
    ¬ (⟨⟨[some 1, some 2, none]⟩, 3, 6⟩ : SimpleVector Nat).size_
      < (⟨⟨[some 1, some 2, none]⟩, 3, 6⟩ : SimpleVector Nat).simple_vector_.slots ∧
    PushBack (⟨⟨[some 1, some 2, none]⟩, 3, 6⟩ : SimpleVector Nat) 7 = .error .undefined ∧
    push_all (⟨⟨[none, none, none, none]⟩, 0, 4⟩ : SimpleVector Nat) [(false, 1), (false, 2)]
      = .ok ⟨⟨[some 1, some 2, none, none]⟩, 2, 4⟩ ∧
    copy (⟨⟨[some 1, some 2, none, none]⟩, 2, 4⟩ : SimpleVector Nat)
      = .ok ⟨⟨[some 1, some 2]⟩, 2, 4⟩ ∧
    Reachable (⟨⟨[some 1, some 2]⟩, 2, 4⟩ : SimpleVector Nat) ∧
    PushBack (⟨⟨[some 1, some 2]⟩, 2, 4⟩ : SimpleVector Nat) 9 = .error .undefined ∧
    Insert (⟨⟨[some 1, some 2]⟩, 2, 4⟩ : SimpleVector Nat) 0 9 = .error .undefined :=
  ⟨by decide, by decide,
    Reachable.Resize ⟨⟨[some 1, some 2]⟩, 2, 2⟩ 3 _
      (Reachable.from_sequence [1, 2] _ (by decide)) (by decide),
    by decide, by decide, by decide, by decide, by decide,
    Reachable.copy ⟨⟨[some 1, some 2, none, none]⟩, 2, 4⟩ ⟨⟨[some 1, some 2]⟩, 2, 4⟩
      (Reachable.PushBack ⟨⟨[some 1, none, none, none]⟩, 1, 4⟩ 2
        ⟨⟨[some 1, some 2, none, none]⟩, 2, 4⟩
        (Reachable.PushBack ⟨⟨[none, none, none, none]⟩, 0, 4⟩ 1
          ⟨⟨[some 1, none, none, none]⟩, 1, 4⟩
          (Reachable.from_reservation 4 ⟨⟨[none, none, none, none]⟩, 0, 4⟩ (by decide))
          (by decide))
        (by decide))
      (by decide),
    by decide, by decide⟩

/-- C19, the code at the failing input.  Reservation of 3, then copy: the copy has no
slot at all, size 0 and capacity 3.  For `n = 1` (`size_ < n < capacity_`) the loop
of `Resize` starts by assigning slot 1, which the buffer does not have: loop and
`Resize` are undefined, no iteration completes and no slot receives `Type{}`. -/
theorem C19_Resize_loop_past_buffer :
    (from_reservation 3 : Except Fault (SimpleVector Nat))
      = .ok ⟨⟨[none, none, none]⟩, 0, 3⟩ ∧
    copy (⟨⟨[none, none, none]⟩, 0, 3⟩ : SimpleVector Nat) = .ok ⟨⟨[]⟩, 0, 3⟩ ∧
    Reachable (⟨⟨[]⟩, 0, 3⟩ : SimpleVector Nat) ∧
    (⟨⟨[]⟩, 0, 3⟩ : SimpleVector Nat).size_ < 1 ∧
    1 < (⟨⟨[]⟩, 0, 3⟩ : SimpleVector Nat).capacity_ ∧
    Resize_loop (⟨⟨[]⟩, 0, 3⟩ : SimpleVector Nat).end_ (⟨[]⟩ : ArrayPtr Nat)
      ((⟨⟨[]⟩, 0, 3⟩ : SimpleVector Nat).begin_ + 1) = .error .undefined ∧
    Resize (⟨⟨[]⟩, 0, 3⟩ : SimpleVector Nat) 1 = .error .undefined :=
  ⟨by decide, by decide,
    Reachable.copy ⟨⟨[none, none, none]⟩, 0, 3⟩ ⟨⟨[]⟩, 0, 3⟩
      (Reachable.from_reservation 3 ⟨⟨[none, none, none]⟩, 0, 3⟩ (by decide)) (by decide),
    by decide, by decide, by decide, by decide⟩

/-- C20.  For every `k >= 1`, after `k` `PushBack` calls (of either overload) on the
default-constructed vector the calls have returned, the size is `k` and the
capacity is the least power of two that is at least `k`; for `k = 1, ..., 9` the
capacities are 1, 2, 4, 4, 8, 8, 8, 8, 16. -/
theorem C20_capacity_is_least_power_of_two (pushes : List (Bool × T))
    (hk : 1 ≤ pushes.length) :
    (∃ w : SimpleVector T, push_all empty pushes = .ok w ∧ w.size_ = pushes.length ∧
      ∃ e, w.capacity_ = 2 ^ e ∧ pushes.length ≤ 2 ^ e ∧
        ∀ m, pushes.length ≤ 2 ^ m → 2 ^ e ≤ 2 ^ m) ∧
    (List.range 9).map (fun k =>
        (push_all (empty : SimpleVector Nat) (List.replicate (k + 1) (false, 0))).map
          (fun w => w.capacity_))
      = [.ok 1, .ok 2, .ok 4, .ok 4, .ok 8, .ok 8, .ok 8, .ok 8, .ok 16] := by
  constructor
  · obtain ⟨w, hw, hs, hc, _, hj⟩ := push_all_doubling pushes (empty : SimpleVector T)
      (by simp [empty, ArrayPtr.slots, ArrayPtr.new]) (by simp [empty])
      (Or.inl ⟨rfl, rfl⟩)
    have hs' : w.size_ = pushes.length := by
      rw [hs]
      simp [empty]
    refine ⟨w, hw, hs', ?_⟩
    rcases hj with ⟨h0, _⟩ | ⟨e, he, hlt⟩
    · omega
    · refine ⟨e, he, by omega, ?_⟩
      intro m hm
      have h3 : 2 ^ e < 2 ^ (m + 1) := by
        rw [Nat.pow_succ]
        omega
      have h4 : e < m + 1 := (Nat.pow_lt_pow_iff_right (by norm_num)).mp h3
      exact Nat.pow_le_pow_right (by norm_num) (by omega)
  · decide

/-- C20, witness: five pushes on the empty vector give size 5 and capacity 8. -/
theorem C20_capacity_is_least_power_of_two_witness :
    ∃ w : SimpleVector Nat,
      push_all empty [(false, 1), (true, 2), (false, 3), (true, 4), (false, 5)] = .ok w ∧
      w.size_ = 5 ∧ w.capacity_ = 8 := by
  obtain ⟨w, hw, hs, _⟩ := (C20_capacity_is_least_power_of_two
    [(false, 1), (true, 2), (false, 3), (true, 4), (false, 5)] (by decide)).1
  have h : push_all (empty : SimpleVector Nat)
      [(false, 1), (true, 2), (false, 3), (true, 4), (false, 5)]
      = .ok ⟨⟨[some 1, some 2, some 3, some 4, some 5, none, none, none]⟩, 5, 8⟩ := by decide
  rw [h] at hw
  cases hw
  exact ⟨_, h, rfl, rfl⟩

end SimpleVector
